import Mathlib

/-!
# c-rez: the resource symbol index and the generated lookup function

A shallow embedding of `src/c-rez.c`.

* Bytes are `Fin 256` (the value of an `unsigned char`); a C string is the list
  of the bytes of its buffer, read up to the first zero byte (`cstr`).
* A value of type `crez_node` is a value of the C type `struct crez_node *`:
  either the null pointer or an owned node with its `symbol` and its 256
  `chilren` slots.
* Code whose behaviour the C standard leaves undefined (an array index outside
  `chilren[256]`, a null `FILE *` handed to `fprintf` or `fclose`, a null node
  dereferenced) yields `none` / `Fault.undefined`.
* The text written to a `FILE *` is the list of bytes appended to the stream.
-/

namespace CRez

/-! ## Bytes, C strings, platform -/

/-- The value of an `unsigned char`. -/
abbrev Byte := Fin 256

/-- What the C source leaves to the implementation: whether plain `char` is a
signed type, and `sizeof (int)`, which is the size of a character constant in
C and is at least 1. -/
structure Platform where
  char_signed : Bool
  sizeof_int : Nat
  sizeof_int_pos : 0 < sizeof_int

/-- An ABI with signed plain `char` (x86, x86-64). -/
def signed_char_abi : Platform := ⟨true, 4, by decide⟩

/-- An ABI with unsigned plain `char` (ARM, PowerPC). -/
def unsigned_char_abi : Platform := ⟨false, 4, by decide⟩

/-- The bytes of an ASCII string literal of the source. -/
def lit (s : String) : List Byte := s.toList.map fun c => Fin.ofNat c.toNat

/-- The string held in a `char` buffer: the bytes before the first zero byte. -/
def cstr (buf : List Byte) : List Byte := buf.takeWhile fun b => b ≠ 0

/-- The C library function `strlen`. -/
def strlen (buf : List Byte) : Nat := (cstr buf).length

/-- The value of a plain `char` object holding byte `b`, after promotion to `int`. -/
def char_value (P : Platform) (b : Byte) : Int :=
  if P.char_signed = true ∧ 128 ≤ b.val then (b.val : Int) - 256 else (b.val : Int)

/-- The slot of a 256-element array selected by index `i`, if `i` is within bounds. -/
def array_slot (i : Int) : Option Byte :=
  if h : 0 ≤ i ∧ i < 256 then some ⟨i.toNat, by omega⟩ else none

/-- The conversion `%d` of `printf` for a non-negative value. -/
def decimal (n : Nat) : List Byte := lit (Nat.repr n)

/-! ## The trie: `struct crez_node`, `node_create`, `node_add_symbol` -/

/-- A value of type `struct crez_node *`: null, or a node owning its `symbol`
(null or a string) and the 256 pointers of `chilren`. -/
inductive crez_node where
  | null : crez_node
  | node (symbol : Option (List Byte)) (chilren : Byte → crez_node) : crez_node

/-- The source `node_create`: a zeroed node, with a copy of `symbol` (its bytes up
to the terminator) when `symbol` is not null. -/
def node_create (symbol : Option (List Byte)) : crez_node :=
  .node (symbol.map cstr) (fun _ => .null)

/-- The loop and the final test of `node_add_symbol`, over the `name_len` bytes of
the name that are still to be read. `key :: rest`: one round of the `for` loop,
`chilren[key]` indexed by the plain `char` `key`; `[]`: the code after the loop.
Returns the updated node and the `int` result, or `none` where the C code has
undefined behaviour (null `node`, index outside `chilren`). -/
def add_symbol_loop (P : Platform) : crez_node → List Byte → List Byte → Option (crez_node × Int)
  | .null, _, _ => none
  | .node sym chilren, [], symbol =>
    match chilren 0 with
    | .null => some (.node sym (Function.update chilren 0 (node_create (some symbol))), 1)
    | .node _ _ => some (.node sym chilren, 0)
  | .node sym chilren, key :: rest, symbol =>
    match array_slot (char_value P key) with
    | none => none
    | some k =>
      let child := match chilren k with
        | .null => node_create none
        | .node s c => .node s c
      match add_symbol_loop P child rest symbol with
      | none => none
      | some (child1, r) => some (.node sym (Function.update chilren k child1), r)

/-- The source `node_add_symbol(node, name, symbol)`. -/
def node_add_symbol (P : Platform) (node : crez_node) (name symbol : List Byte) :
    Option (crez_node × Int) :=
  add_symbol_loop P node (cstr name) symbol

/-- The node reached from `t` by following `chilren` along the bytes of `path`
(null when a pointer on the way is null). -/
def walk : crez_node → List Byte → crez_node
  | t, [] => t
  | .null, _ :: _ => .null
  | .node _ chilren, b :: rest => walk (chilren b) rest

/-- The `symbol` field of a node (null for the null pointer). -/
def symbol_of : crez_node → Option (List Byte)
  | .null => none
  | .node s _ => s

/-- The terminal node of `name` in `t`: walk the bytes of `name`, then slot 0. -/
def terminal (t : crez_node) (name : List Byte) : crez_node := walk t (name ++ [0])

/-- Whether `name` is registered in `t`: its terminal node exists. -/
def registered (t : crez_node) (name : List Byte) : Prop := terminal t name ≠ .null

/-- A run of `node_add_symbol` calls on one root, in order; `none` as soon as one
call has undefined behaviour. -/
def add_all (P : Platform) : crez_node → List (List Byte × List Byte) → Option crez_node
  | t, [] => some t
  | t, (name, symbol) :: rest =>
    match node_add_symbol P t name symbol with
    | none => none
    | some (t1, _) => add_all P t1 rest

/-- The trie built from `node_create(NULL)` by the given calls. -/
def build (P : Platform) (calls : List (List Byte × List Byte)) : Option crez_node :=
  add_all P (node_create none) calls

/-! ## The lookup function as text: `write_space`, `write_node`, `write_locate_function` -/

/-- A value of type `FILE *` opened for writing: null, or the bytes written so far. -/
abbrev FilePtr := Option (List Byte)

/-- The source `write_space`: `amount` blanks. -/
def write_space (amount : Nat) : List Byte := List.replicate amount 32

/-- The values of `i` in `for (i = 1; i < 256; i++)`, in order. -/
def child_indices : List Byte := (List.finRange 256).tail

/-- The two `%s` arguments after `return` in the `case 0` line of `write_node`. -/
def return_operand (symbol : Option (List Byte)) : List Byte :=
  match symbol with
  | some s => lit " &" ++ cstr s
  | none => lit " " ++ lit "(void *) 0"

/-- The local `symbol` of `write_node`: `chilren[0]->symbol` when `chilren[0]` and
its symbol are not null, else null. -/
def terminal_symbol (chilren : Byte → crez_node) : Option (List Byte) :=
  match chilren 0 with
  | .null => none
  | .node s _ => s

/-- The source `write_node(c_file, node, level)`: the bytes it appends to `c_file`.
The source dereferences `node` at once; it is called on the root and on non-null
children only, and the null case here is never reached from a non-null root. -/
def write_node : crez_node → Nat → List Byte
  | .null, _ => []
  | .node _ chilren, level =>
    let indent := level * 2 + 2
    write_space indent ++ (lit "switch (name[" ++ decimal level ++ lit "]) \x7b\n")
    ++ write_space indent
    ++ (lit "  case 0: return" ++ return_operand (terminal_symbol chilren) ++ lit ";\n")
    ++ (child_indices.flatMap fun i =>
          match chilren i with
          | .null => []
          | .node _ _ =>
            write_space indent ++ (lit "  case \x27" ++ [i] ++ lit "\x27:\n")
            ++ write_node (chilren i) (level + 1))
    ++ write_space indent ++ lit "  default: return (void *) 0;\n"
    ++ write_space indent ++ lit "\x7d\n"

/-- The prototype that `write_locate_function` writes to the header. -/
def locate_prototype (key : List Byte) : List Byte :=
  lit "struct c_rez_resource const * " ++ lit "c_rez_locate_" ++ cstr key
  ++ lit "(const char name[]);"

/-- The function definition that `write_locate_function` writes to the source file. -/
def locate_definition (key : List Byte) (root : crez_node) : List Byte :=
  lit "struct c_rez_resource const * " ++ lit "c_rez_locate_" ++ cstr key
  ++ lit "(const char name[]) \x7b\n"
  ++ write_node root 0
  ++ lit "\x7d\n"

/-- Appending text to a stream that is known to be open. -/
def append_to (f : FilePtr) (text : List Byte) : FilePtr := f.map fun written => written ++ text

/-- The source `write_locate_function(h_file, c_file, key, root)`: the two streams
afterwards. Each stream is written under its own `if`, so a null stream is left
alone. -/
def write_locate_function (h_file c_file : FilePtr) (key : List Byte) (root : crez_node) :
    FilePtr × FilePtr :=
  let h1 := if h_file.isSome then append_to h_file (locate_prototype key) else h_file
  let c1 := if c_file.isSome then append_to c_file (locate_definition key root) else c_file
  (h1, c1)

/-! ## The lookup function as C code: abstract syntax and switch semantics

`node_stmt` builds, by the same traversal as `write_node`, the statement whose
concrete syntax `write_node` writes (`render_node_stmt`). `exec` gives the
statement its meaning under the rules of the C `switch` statement: control
jumps to the `case` label whose constant equals the controlling expression, or
to `default` if there is none, and runs on from there, through any following
labels, until a `return`. -/

/-- A label inside the body of an emitted `switch`. -/
inductive CLabel where
  | case_zero : CLabel
  | case_char (c : Byte) : CLabel
  | default : CLabel
deriving DecidableEq

/-- The statements of the emitted code: `return &symbol;` / `return (void *) 0;`,
`switch (name[level]) { body }`, a labelled statement, and two statements in
sequence. -/
inductive CStmt where
  | ret (symbol : Option (List Byte)) : CStmt
  | switch_name (level : Nat) (body : CStmt) : CStmt
  | labeled (l : CLabel) (s : CStmt) : CStmt
  | seq (s1 s2 : CStmt) : CStmt
deriving DecidableEq

/-- The statement that `write_node(c_file, node, level)` writes. -/
def node_stmt : crez_node → Nat → CStmt
  | .null, _ => .ret none
  | .node _ chilren, level =>
    .switch_name level
      (.seq (.labeled .case_zero (.ret (terminal_symbol chilren)))
        (child_indices.foldr
          (fun i following =>
            match chilren i with
            | .null => following
            | .node _ _ =>
              .seq (.labeled (.case_char i) (node_stmt (chilren i) (level + 1))) following)
          (.labeled .default (.ret none))))

/-- The arms that the `for` loop of `write_node` writes for the slots `indices`,
followed by the statement `last`. -/
def child_arms (chilren : Byte → crez_node) (level : Nat) (indices : List Byte) (last : CStmt) :
    CStmt :=
  indices.foldr
    (fun i following =>
      match chilren i with
      | .null => following
      | .node _ _ =>
        .seq (.labeled (.case_char i) (node_stmt (chilren i) (level + 1))) following)
    last

/-- The text of a label. -/
def label_text : CLabel → List Byte
  | .case_zero => lit "case 0:"
  | .case_char c => lit "case \x27" ++ [c] ++ lit "\x27:"
  | .default => lit "default:"

/-- Concrete syntax in the layout of `write_node`: a `switch` at indentation
`indent`, its labels two columns further in, a `return` on the line of its label,
any other labelled statement on the lines below its label. -/
def render : CStmt → Nat → List Byte
  | .ret symbol, indent =>
    write_space indent ++ (lit "return" ++ return_operand symbol ++ lit ";\n")
  | .switch_name level body, indent =>
    write_space indent ++ (lit "switch (name[" ++ decimal level ++ lit "]) \x7b\n")
    ++ render body indent
    ++ write_space indent ++ lit "\x7d\n"
  | .labeled l s, indent =>
    write_space indent ++ (lit "  " ++ label_text l
      ++ (match s with
          | .ret symbol => lit " return" ++ return_operand symbol ++ lit ";\n"
          | .switch_name _ _ => lit "\n" ++ render s (indent + 2)
          | .labeled _ _ => lit "\n" ++ render s (indent + 2)
          | .seq _ _ => lit "\n" ++ render s (indent + 2)))
  | .seq s1 s2, indent => render s1 indent ++ render s2 indent

/-- The value of the integer character constant written as a quote, the single
byte `c`, and a quote: none when that is not a character constant of C (the
byte is a quote, a backslash or a new-line, which the C grammar excludes from
the characters between the quotes), else the value of a `char` holding `c`. -/
def char_constant_value (P : Platform) (c : Byte) : Option Int :=
  if c = 39 ∨ c = 92 ∨ c = 10 then none else some (char_value P c)

/-- The constant of a `case` label (none for `default` and for a label that is
not well-formed). -/
def label_value (P : Platform) : CLabel → Option Int
  | .case_zero => some 0
  | .case_char c => char_constant_value P c
  | .default => none

/-- Whether a label is well-formed C. -/
def label_ok (P : Platform) : CLabel → Bool
  | .case_zero => true
  | .case_char c => (char_constant_value P c).isSome
  | .default => true

/-- The labels that belong to the enclosing `switch`: those of the statement that
are not inside a nested `switch`. -/
def labels_of : CStmt → List CLabel
  | .ret _ => []
  | .switch_name _ _ => []
  | .labeled l s => l :: labels_of s
  | .seq s1 s2 => labels_of s1 ++ labels_of s2

/-- The constraints of C on the emitted statement: every label is well-formed,
and within one `switch` no two `case` constants are equal and there is at most
one `default`. -/
def well_formed (P : Platform) : CStmt → Bool
  | .ret _ => true
  | .switch_name _ body =>
    well_formed P body && decide (((labels_of body).map (label_value P)).Nodup)
  | .labeled l s => label_ok P l && well_formed P s
  | .seq s1 s2 => well_formed P s1 && well_formed P s2

/-- Where control is while the statements of a function body are passed in order. -/
inductive Flow where
  | run : Flow
  | seek_case (v : Int) : Flow
  | seek_default : Flow
  | returned (result : Option (List Byte)) : Flow
  | undefined : Flow
deriving DecidableEq

/-- The value of `name[i]` for the argument string `name`: its bytes, then the
terminating zero; reading past the terminator is not defined. -/
def name_at (P : Platform) (name : List Byte) (i : Nat) : Option Int :=
  if i < strlen name then some (char_value P ((cstr name).getD i 0))
  else if i = strlen name then some 0
  else none

/-- Passing over statement `s` with control in state `flow`. `run`: the statement
is executed. `seek_case v` / `seek_default`: a `switch` has jumped and the
statement is skipped, unless it carries the label sought, from which point on
statements are executed. A nested `switch` keeps its labels to itself. -/
def exec (P : Platform) (name : List Byte) : CStmt → Flow → Flow
  | _, .returned result => .returned result
  | _, .undefined => .undefined
  | .ret symbol, .run => .returned symbol
  | .ret _, .seek_case v => .seek_case v
  | .ret _, .seek_default => .seek_default
  | .seq s1 s2, flow => exec P name s2 (exec P name s1 flow)
  | .labeled _ s, .run => exec P name s .run
  | .labeled l s, .seek_case v =>
    if label_value P l = some v then exec P name s .run else exec P name s (.seek_case v)
  | .labeled l s, .seek_default =>
    if l = .default then exec P name s .run else exec P name s .seek_default
  | .switch_name _ _, .seek_case v => .seek_case v
  | .switch_name _ _, .seek_default => .seek_default
  | .switch_name level body, .run =>
    match name_at P name level with
    | none => .undefined
    | some v =>
      let target :=
        if some v ∈ (labels_of body).map (label_value P) then some (Flow.seek_case v)
        else if CLabel.default ∈ labels_of body then some Flow.seek_default
        else none
      match target with
      | none => .run
      | some jump =>
        match exec P name body jump with
        | .returned result => .returned result
        | .undefined => .undefined
        | _ => .run

/-- Calling the function whose body is `body` on `name`: the value returned (null
or the address of a symbol), or none when the text is not well-formed C or
control reaches the end of the function without a `return`. -/
def call_function (P : Platform) (body : CStmt) (name : List Byte) :
    Option (Option (List Byte)) :=
  if well_formed P body = true then
    match exec P name body .run with
    | .returned result => some result
    | _ => none
  else none

/-- Calling the lookup function that `write_locate_function` emits for `root`. -/
def c_rez_locate (P : Platform) (root : crez_node) (name : List Byte) :
    Option (Option (List Byte)) :=
  call_function P (node_stmt root 0) name

/-! ## The identifier maker: `make_identifier` -/

/-- The C library function `isalnum` in the "C" locale (the program never calls
`setlocale`), applied to an `int`: true exactly for the ASCII digits and
letters. For a negative argument, which a signed plain `char` above 127 gives,
the C libraries in use (glibc, musl) index their tables from -128 and answer
false, as this definition does. -/
def isalnum (c : Int) : Bool :=
  decide ((48 ≤ c ∧ c ≤ 57) ∨ (65 ≤ c ∧ c ≤ 90) ∨ (97 ≤ c ∧ c ≤ 122))

/-- The right-hand side `isalnum(s[i]) ? s[i] : (char) '_'` for the `char` holding `b`. -/
def sanitized (P : Platform) (b : Byte) : Byte :=
  if isalnum (char_value P b) = true then b else 95

/-- One of the two copying loops of `make_identifier`: for `src_i` from 0 below
`len`, store the sanitized `src[src_i]` at `identifier[dst_i]` and advance
`dst_i`. The state is the buffer and `dst_i`. -/
def copy_loop (P : Platform) (src : List Byte) (len : Nat) (state : List Byte × Nat) :
    List Byte × Nat :=
  (List.range len).foldl
    (fun st src_i => (st.1.set st.2 (sanitized P (src.getD src_i 0)), st.2 + 1))
    state

/-- The source `make_identifier(input, prefix)`: the buffer it returns, of
`identifier_size` bytes. The second parameter is the prefix. -/
def make_identifier (P : Platform) (input pfx : List Byte) : List Byte :=
  let input_len := strlen input
  let prefix_len := strlen pfx
  let identifier_size := input_len + prefix_len + P.sizeof_int + 1
  let identifier : List Byte := List.replicate identifier_size 0
  let st1 := copy_loop P pfx prefix_len (identifier, 0)
  let st2 : List Byte × Nat := (st1.1.set st1.2 95, st1.2 + 1)
  let st3 := copy_loop P input input_len st2
  st3.1.set (identifier_size - 1) 0

/-! ## The writers: `write_byte`, `write_file`, `write_files` -/

/-- How a run of the program can stop short: `exit(status)`, or undefined
behaviour of the C code. -/
inductive Fault where
  | exit (status : Int) : Fault
  | undefined : Fault
deriving DecidableEq

/-- The C library function `fprintf` with its text already formatted: undefined
on a null stream. -/
def fprintf (file : FilePtr) (text : List Byte) : Except Fault FilePtr :=
  match file with
  | none => .error .undefined
  | some written => .ok (some (written ++ text))

/-- The C library function `fclose`: undefined on a null stream; the stream keeps
the bytes written. -/
def fclose (file : FilePtr) : Except Fault (List Byte) :=
  match file with
  | none => .error .undefined
  | some written => .ok written

/-- The conversion `%3d` of `printf` for a non-negative value: at least three
columns, padded with blanks on the left. -/
def decimal3 (n : Nat) : List Byte :=
  List.replicate (3 - (decimal n).length) 32 ++ decimal n

/-- The source `write_byte(file, byte, current_column)`: the text it appends to
`file` and the column it returns. -/
def write_byte (byte : Byte) (current_column : Nat) : List Byte × Nat :=
  let t1 := if current_column > 0 then lit "," else []
  let t2 := if current_column = 15 then lit "\n" else []
  let column := if current_column = 15 then 0 else current_column
  let t3 := if column = 0 then lit "  " else []
  (t1 ++ t2 ++ t3 ++ (lit " " ++ decimal3 byte.val), column + 1)

/-- The files the program can touch: the content `fopen(path, "rb")` gives for an
input file (none when it cannot be opened), and whether `fopen(path, "w+")`
succeeds for an output file. -/
structure Files where
  readable : List Byte → Option (List Byte)
  writable : List Byte → Bool

/-- The `fread` loop of `write_file`: the text of the bytes and the column after
the last one. -/
def write_data (content : List Byte) : List Byte × Nat :=
  content.foldl
    (fun acc c => (acc.1 ++ (write_byte c acc.2).1, (write_byte c acc.2).2))
    ([], 0)

/-- The source `write_file(file_name, identifier, h_file, c_file, is_text)`: the
two streams afterwards. The message for an input file that cannot be opened
goes to `stderr`, which is not recorded. -/
def write_file (W : Files) (file_name identifier : List Byte) (h_file c_file : FilePtr)
    (is_text : Int) : FilePtr × FilePtr :=
  if h_file.isNone ∧ c_file.isNone then (h_file, c_file)
  else
    match W.readable (cstr file_name) with
    | none => (h_file, c_file)
    | some content =>
      let h1 :=
        if h_file.isSome then
          append_to h_file (lit "extern c_rez_resource const " ++ cstr identifier ++ lit ";\n")
        else h_file
      let c1 :=
        if c_file.isSome then
          let data := write_data content
          let total := content.length
          let tail := if is_text ≠ 0 then (write_byte 0 data.2).1 else []
          let total1 := if is_text ≠ 0 then total + 1 else total
          append_to c_file
            (lit "unsigned char const " ++ cstr identifier ++ lit "_data[] = \x7b\n"
             ++ data.1 ++ tail ++ lit "\n\x7d;\n"
             ++ (lit "struct c_rez_resource const " ++ cstr identifier ++ lit " = \x7b "
                 ++ cstr identifier ++ lit "_data, " ++ decimal total1 ++ lit " \x7d;\n"))
        else c_file
      (h1, c1)

/-- The source `write_include_guard_opening`. -/
def write_include_guard_opening (file : FilePtr) (identifier : List Byte) :
    Except Fault FilePtr :=
  fprintf file (lit "#ifndef c_rez_" ++ cstr identifier ++ lit "\n"
    ++ lit "#define c_rez_" ++ cstr identifier ++ lit "\n")

/-- The source `write_include_guard_closing`. -/
def write_include_guard_closing (file : FilePtr) (identifier : List Byte) :
    Except Fault FilePtr :=
  fprintf file (lit "#endif /* c_rez_" ++ cstr identifier ++ lit " */\n")

/-- The source `write_cplusplus_extern_guard_opening`. -/
def write_cplusplus_extern_guard_opening (file : FilePtr) : Except Fault FilePtr :=
  fprintf file (lit "#ifdef __cplusplus\nextern \"C\" \x7b\n#endif\n")

/-- The source `write_cplusplus_extern_guard_closing`. -/
def write_cplusplus_extern_guard_closing (file : FilePtr) : Except Fault FilePtr :=
  fprintf file (lit "#ifdef __cplusplus\n\x7d\n#endif\n")

/-- The source `write_resource_struct_declaration`. -/
def write_resource_struct_declaration (file : FilePtr) : Except Fault FilePtr :=
  fprintf file (lit "#ifndef c_rez_resource_struct\n"
    ++ lit "#define c_rez_resource_struct\n"
    ++ lit "typedef struct c_rez_resource \x7b\n"
    ++ lit "  unsigned char const * const data;\n"
    ++ lit "  unsigned int const length;\n"
    ++ lit "\x7d c_rez_resource;\n"
    ++ lit "#endif /* c_rez_resource_struct */\n")

/-- The source `node_destroy(node)`: the nodes it hands to `free`, in order, each
named by its path from the root. Every one of the 256 rounds of the loop tests
and destroys `chilren[0]`, whose pointer the freed parent slot still holds. -/
def node_destroy : crez_node → List Byte → List (List Byte)
  | .null, _ => []
  | .node _ chilren, path =>
    ((List.finRange 256).flatMap fun _ =>
        match chilren 0 with
        | .null => []
        | .node _ _ => node_destroy (chilren 0) (path ++ [0]))
    ++ [path]

/-- The parsed options, `struct crez_opts`: the key, the two output paths (null
when not given) and the `file_count` entries of `files`. -/
structure crez_opts where
  key : List Byte
  h_output : Option (List Byte)
  c_output : Option (List Byte)
  files : List (List Byte)

/-- The variables of `write_files` that change in its `for` loop. -/
structure LoopState where
  root : crez_node
  h_file : FilePtr
  c_file : FilePtr
  wants_text : Int

/-- One round of the `for` loop of `write_files`, for the entry `file` of `files`. -/
def write_files_step (P : Platform) (W : Files) (key : List Byte) (st : LoopState)
    (file : List Byte) : Except Fault LoopState :=
  if cstr file = lit "--text" then .ok { st with wants_text := 1 }
  else
    let res_identifier := make_identifier P file key
    match node_add_symbol P st.root file res_identifier with
    | none => .error .undefined
    | some (root1, added) =>
      let written :=
        if added ≠ 0 then write_file W file res_identifier st.h_file st.c_file st.wants_text
        else (st.h_file, st.c_file)
      match fprintf written.2 (lit "\n") with
      | .error e => .error e
      | .ok c2 => .ok { root := root1, h_file := written.1, c_file := c2, wants_text := 0 }

/-- The `for` loop of `write_files`. -/
def write_files_loop (P : Platform) (W : Files) (key : List Byte) :
    LoopState → List (List Byte) → Except Fault LoopState
  | st, [] => .ok st
  | st, file :: rest =>
    match write_files_step P W key st file with
    | .error e => .error e
    | .ok st1 => write_files_loop P W key st1 rest

/-- The lines `write_files` puts at the head of the header, when there is one. -/
def write_header_opening (file : FilePtr) (h_identifier : List Byte) : Except Fault FilePtr := do
  let f ← write_include_guard_opening file h_identifier
  let f ← fprintf f (lit "\n")
  let f ← write_cplusplus_extern_guard_opening f
  let f ← fprintf f (lit "\n")
  let f ← write_resource_struct_declaration f
  fprintf f (lit "\n")

/-- The lines `write_files` puts at the head of the source file, when there is one. -/
def write_source_opening (file : FilePtr) : Except Fault FilePtr := do
  let f ← write_cplusplus_extern_guard_opening file
  let f ← fprintf f (lit "\n")
  let f ← write_resource_struct_declaration f
  fprintf f (lit "\n")

/-- The lines `write_files` puts at the end of the header, when there is one. -/
def write_header_closing (file : FilePtr) (h_identifier : List Byte) : Except Fault FilePtr := do
  let f ← fprintf file (lit "\n")
  let f ← write_cplusplus_extern_guard_closing f
  let f ← fprintf f (lit "\n")
  let f ← write_include_guard_closing f h_identifier
  fprintf f (lit "\n")

/-- The two `fopen(path, "w+")` calls of `write_files`: a path that was not given
leaves the stream null, as does a file that cannot be opened. -/
def open_output (W : Files) (path : Option (List Byte)) : FilePtr :=
  match path with
  | some p => if W.writable (cstr p) = true then some [] else none
  | none => none

/-- The end of `write_files`, after its `for` loop: the lookup function, the
closing lines of the header when there is one, `node_destroy(root)` (undefined
when it frees a node twice), then `fclose(c_file)` and `fclose(h_file)`. The
result is the bytes of the header and of the source file. -/
def write_files_finish (key h_identifier : List Byte) (st : LoopState) :
    Except Fault (List Byte × List Byte) :=
  let located := write_locate_function st.h_file st.c_file key st.root
  match (if located.1.isSome then write_header_closing located.1 h_identifier
         else .ok located.1) with
  | .error e => .error e
  | .ok h_file =>
    if ¬ (node_destroy st.root []).Nodup then .error Fault.undefined
    else
      match fclose located.2 with
      | .error e => .error e
      | .ok c_text =>
        match fclose h_file with
        | .error e => .error e
        | .ok h_text => .ok (h_text, c_text)

/-- The source `write_files(opts)`: the bytes of the header and of the source file
once both streams are closed, or the fault that stops the run. `h_identifier`
is used only when there is a header. -/
def write_files (P : Platform) (W : Files) (opts : crez_opts) :
    Except Fault (List Byte × List Byte) :=
  if opts.files.length = 0 then .error (Fault.exit 1)
  else
    let h_file := open_output W opts.h_output
    let c_file := open_output W opts.c_output
    if c_file.isNone ∧ opts.c_output.isSome then .error (Fault.exit 1)
    else if h_file.isNone ∧ opts.h_output.isSome then .error (Fault.exit 1)
    else
      let h_identifier :=
        if h_file.isSome then make_identifier P (opts.h_output.getD []) opts.key else []
      match (if h_file.isSome then write_header_opening h_file h_identifier
             else .ok h_file) with
      | .error e => .error e
      | .ok h1 =>
        match (if c_file.isSome then write_source_opening c_file else .ok c_file) with
        | .error e => .error e
        | .ok c1 =>
          match write_files_loop P W opts.key ⟨node_create none, h1, c1, 0⟩ opts.files with
          | .error e => .error e
          | .ok st => write_files_finish opts.key h_identifier st

/-! ## Predicates used in the statements -/

/-- A buffer without a zero byte: a C string that fills its buffer. -/
def zero_free (s : List Byte) : Prop := ∀ b ∈ s, b ≠ 0

/-- Whether the plain `char` holding `b` indexes `chilren` within bounds: plain
`char` is unsigned, or the byte is below 128. -/
def index_in_bounds (P : Platform) (b : Byte) : Prop := P.char_signed = false ∨ b.val < 128

instance (s : List Byte) : Decidable (zero_free s) := by unfold zero_free; infer_instance

instance (P : Platform) (b : Byte) : Decidable (index_in_bounds P b) := by
  unfold index_in_bounds; infer_instance

/-- The symbol that the first call carrying `name` passed, in a list of
`node_add_symbol` calls `(name, symbol)`; none when no call carries the name. -/
def first_registration (calls : List (List Byte × List Byte)) (name : List Byte) :
    Option (List Byte) :=
  (calls.find? fun c => decide (cstr c.1 = name)).map fun c => c.2

/-- The zeroed `chilren` array of a fresh node with slot `k` set to `child`. -/
def single_child (k : Byte) (child : crez_node) : Byte → crez_node :=
  Function.update (fun _ => crez_node.null) k child

/-- The trie that holds the one name made of the byte `b`, registered with
`symbol`: the root, the node of `b` and the terminal node. -/
def one_byte_trie (b : Byte) (symbol : List Byte) : crez_node :=
  .node none (single_child b (.node none (single_child 0 (node_create (some symbol)))))

/-- The files of the examples: the input files "a.txt", "a.b" and "a_b" exist,
holding the bytes "hi", the byte 1 and the byte 2; every output path can be
opened for writing. -/
def sample_files : Files :=
  ⟨fun path =>
      if path = lit "a.txt" then some (lit "hi")
      else if path = lit "a.b" then some [1]
      else if path = lit "a_b" then some [2]
      else none,
    fun _ => true⟩

/-- A byte that may stand between the quotes of a C character constant: not a
quote, a backslash or a new-line. -/
def quotable (b : Byte) : Prop := b ≠ 39 ∧ b ≠ 92 ∧ b ≠ 10

instance (b : Byte) : Decidable (quotable b) := by unfold quotable; infer_instance

/-- Every label that `write_node` writes for the trie is a character constant:
each populated slot other than slot 0, at every node the traversal reaches,
has a quotable index. -/
def quotable_labels : crez_node → Prop
  | .null => True
  | .node _ chilren =>
    ∀ i : Byte, i ≠ 0 → chilren i ≠ .null → quotable i ∧ quotable_labels (chilren i)

/-- Whether a pointer to a node is null. -/
def is_null : crez_node → Bool
  | .null => true
  | .node _ _ => false

/-- The populated slots among `indices`, in the order of `indices`. -/
def populated (chilren : Byte → crez_node) (indices : List Byte) : List Byte :=
  indices.filter fun i => !is_null (chilren i)

/-- Every arm returns: a `switch` has a `default` label and each statement in its
body, executed from its start, ends in a `return`, being a `return` itself or a
nested `switch` of the same kind. -/
def all_arms_return : CStmt → Bool
  | .ret _ => true
  | .switch_name _ body => all_arms_return body && decide (CLabel.default ∈ labels_of body)
  | .labeled _ s => all_arms_return s
  | .seq s1 s2 => all_arms_return s1 && all_arms_return s2

/-- The shape of a terminal node: it carries a symbol and has no children. -/
def terminal_shape : crez_node → Prop
  | .null => True
  | .node symbol chilren => symbol ≠ none ∧ ∀ i : Byte, chilren i = .null

/-- The shape of the root and of the nodes of name bytes: no symbol, slot 0 empty
or a terminal node, every other slot empty or a node of the same shape. -/
def inner_shape : crez_node → Prop
  | .null => True
  | .node symbol chilren =>
    symbol = none ∧ terminal_shape (chilren 0) ∧ ∀ i : Byte, i ≠ 0 → inner_shape (chilren i)

/-- The text `write_file` puts between the braces of the data array: the bytes of
the file through `write_byte`, then one more `write_byte` of 0 for a text. -/
def array_initialiser (content : List Byte) (is_text : Int) : List Byte :=
  (write_data content).1
  ++ (if is_text ≠ 0 then (write_byte 0 (write_data content).2).1 else [])

/-- Where a reader of an array initialiser is within the current item: before its
number, inside its digits, or after them. -/
inductive ItemState where
  | start : ItemState
  | number (n : Nat) : ItemState
  | ended (n : Nat) : ItemState
deriving DecidableEq

/-- Reading one byte that is not a comma: a blank or a new-line is skipped and
ends a number; a digit starts or continues a number, but not after a number
has ended; any other byte is an error. -/
def item_step (s : ItemState) (c : Byte) : Option ItemState :=
  if c = 32 ∨ c = 10 then
    match s with
    | .start => some .start
    | .number n => some (.ended n)
    | .ended n => some (.ended n)
  else if 48 ≤ c.val ∧ c.val ≤ 57 then
    match s with
    | .start => some (.number (c.val - 48))
    | .number n => some (.number (10 * n + (c.val - 48)))
    | .ended _ => none
  else none

/-- Reading one byte of an array initialiser: a comma closes the current item,
which must hold a number (so a leading or a doubled comma is an error); any
other byte goes to `item_step`. The state is the numbers of the closed items
and the state of the current one; none after an error. -/
def read_byte (st : Option (List Nat × ItemState)) (c : Byte) : Option (List Nat × ItemState) :=
  match st with
  | none => none
  | some (items, s) =>
    if c = 44 then
      match s with
      | .start => none
      | .number n => some (items ++ [n], .start)
      | .ended n => some (items ++ [n], .start)
    else (item_step s c).map fun s1 => (items, s1)

/-- The numbers of a comma-separated list of decimal numbers, in order; none when
the text is no such list. The empty list is written with no item at all; after
a comma an item must follow (so a trailing comma is an error). -/
def read_initialiser (text : List Byte) : Option (List Nat) :=
  match text.foldl read_byte (some ([], .start)) with
  | none => none
  | some (items, .start) => if items = [] then some [] else none
  | some (items, .number n) => some (items ++ [n])
  | some (items, .ended n) => some (items ++ [n])

/-! # Theorems -/

/-! ## Lemmas: bytes and strings -/

theorem cstr_zero_free (buf : List Byte) : zero_free (cstr buf) := by
  intro b hb
  have := List.mem_takeWhile_imp hb
  simpa using this

theorem cstr_of_zero_free {s : List Byte} (h : zero_free s) : cstr s = s := by
  unfold cstr
  rw [List.takeWhile_eq_self_iff]
  intro b hb
  simpa using h b hb

theorem cstr_cstr (buf : List Byte) : cstr (cstr buf) = cstr buf :=
  cstr_of_zero_free (cstr_zero_free buf)

theorem array_slot_char_value (P : Platform) (b : Byte) :
    array_slot (char_value P b) = if P.char_signed = true ∧ 128 ≤ b.val then none else some b := by
  unfold array_slot char_value
  have hb := b.isLt
  by_cases h : P.char_signed = true ∧ 128 ≤ b.val
  · rw [if_pos h, if_pos h, dif_neg]
    omega
  · rw [if_neg h, if_neg h, dif_pos ⟨by omega, by omega⟩]
    congr

theorem array_slot_of_in_bounds {P : Platform} {b : Byte} (h : index_in_bounds P b) :
    array_slot (char_value P b) = some b := by
  rw [array_slot_char_value, if_neg]
  rintro ⟨h1, h2⟩
  rcases h with h | h
  · rw [h] at h1; cases h1
  · omega

theorem array_slot_some {P : Platform} {b k : Byte} (h : array_slot (char_value P b) = some k) :
    k = b ∧ index_in_bounds P b := by
  rw [array_slot_char_value] at h
  split at h
  · cases h
  · rename_i hn
    refine ⟨by cases h; rfl, ?_⟩
    unfold index_in_bounds
    by_cases hs : P.char_signed = true
    · right
      by_contra hlt
      exact hn ⟨hs, by omega⟩
    · left
      simpa using hs

/-! ## Lemmas: the trie -/

theorem walk_null (p : List Byte) : walk .null p = .null := by
  cases p <;> rfl

theorem walk_node_create (s : Option (List Byte)) {p : List Byte} (hp : p ≠ []) :
    walk (node_create s) p = .null := by
  cases p with
  | nil => exact absurd rfl hp
  | cons b rest => simp [node_create, walk, walk_null]

theorem walk_append (t : crez_node) (p q : List Byte) :
    walk t (p ++ q) = walk (walk t p) q := by
  induction p generalizing t with
  | nil => simp [walk]
  | cons b rest ih =>
    cases t with
    | null => simp [walk, walk_null]
    | node s ch => simp [walk, ih]

theorem node_create_ne_null (s : Option (List Byte)) : node_create s ≠ .null := by
  simp [node_create]

/-- What one call of the loop does at its own name: it is defined only on a
non-null node and in-bounds bytes; it answers 1 exactly when the terminal node
was missing, and then creates it with a copy of the symbol; it answers 0
otherwise and leaves the trie as it was. -/
theorem add_symbol_loop_spec (P : Platform) (symbol : List Byte) :
    ∀ (name : List Byte) (t t1 : crez_node) (r : Int),
      add_symbol_loop P t name symbol = some (t1, r) →
      t ≠ .null ∧ t1 ≠ .null ∧ (∀ b ∈ name, index_in_bounds P b) ∧
      ((r = 1 ∧ walk t (name ++ [0]) = .null
          ∧ walk t1 (name ++ [0]) = node_create (some symbol))
        ∨ (r = 0 ∧ walk t (name ++ [0]) ≠ .null ∧ t1 = t)) := by
  intro name
  induction name with
  | nil =>
    intro t t1 r h
    cases t with
    | null => simp [add_symbol_loop] at h
    | node sym ch =>
      simp only [add_symbol_loop] at h
      cases hc : ch 0 with
      | null =>
        rw [hc] at h
        simp only [Option.some.injEq, Prod.mk.injEq] at h
        obtain ⟨rfl, rfl⟩ := h
        refine ⟨by simp, by simp, by simp, Or.inl ⟨rfl, ?_, ?_⟩⟩
        · simp [walk, hc]
        · simp [walk, node_create]
      | node s c =>
        rw [hc] at h
        simp only [Option.some.injEq, Prod.mk.injEq] at h
        obtain ⟨rfl, rfl⟩ := h
        refine ⟨by simp, by simp, by simp, Or.inr ⟨rfl, ?_, rfl⟩⟩
        simp [walk, hc]
  | cons key rest ih =>
    intro t t1 r h
    cases t with
    | null => simp [add_symbol_loop] at h
    | node sym ch =>
      simp only [add_symbol_loop] at h
      cases hk : array_slot (char_value P key) with
      | none => rw [hk] at h; simp at h
      | some k =>
        obtain ⟨rfl, hkb⟩ := array_slot_some hk
        rw [hk] at h
        simp only at h
        cases hc : ch k with
        | null =>
          rw [hc] at h
          simp only at h
          cases hrec : add_symbol_loop P (node_create none) rest symbol with
          | none => rw [hrec] at h; simp at h
          | some res =>
            obtain ⟨c1, r1⟩ := res
            rw [hrec] at h
            simp only [Option.some.injEq, Prod.mk.injEq] at h
            obtain ⟨rfl, rfl⟩ := h
            obtain ⟨_, _, hb, hcase⟩ := ih _ _ _ hrec
            refine ⟨by simp, by simp, ?_, ?_⟩
            · intro b hb1
              rcases List.mem_cons.mp hb1 with rfl | hb1
              · exact hkb
              · exact hb b hb1
            · rcases hcase with ⟨rfl, _, h2⟩ | ⟨_, h1, _⟩
              · left
                refine ⟨rfl, ?_, ?_⟩
                · simp [walk, hc, walk_null]
                · simpa [walk] using h2
              · exact absurd (walk_node_create none (by simp)) h1
        | node s c =>
          rw [hc] at h
          simp only at h
          cases hrec : add_symbol_loop P (.node s c) rest symbol with
          | none => rw [hrec] at h; simp at h
          | some res =>
            obtain ⟨c1, r1⟩ := res
            rw [hrec] at h
            simp only [Option.some.injEq, Prod.mk.injEq] at h
            obtain ⟨rfl, rfl⟩ := h
            obtain ⟨_, _, hb, hcase⟩ := ih _ _ _ hrec
            refine ⟨by simp, by simp, ?_, ?_⟩
            · intro b hb1
              rcases List.mem_cons.mp hb1 with rfl | hb1
              · exact hkb
              · exact hb b hb1
            · rcases hcase with ⟨rfl, h1, h2⟩ | ⟨rfl, h1, rfl⟩
              · left
                refine ⟨rfl, ?_, ?_⟩
                · simpa [walk, hc] using h1
                · simpa [walk] using h2
              · right
                refine ⟨rfl, ?_, ?_⟩
                · simpa [walk, hc] using h1
                · congr
                  rw [← hc]
                  exact Function.update_eq_self _ _

/-- The loop is defined on every non-null node and every name whose bytes index
`chilren` within bounds. -/
theorem add_symbol_loop_defined (P : Platform) (symbol : List Byte) :
    ∀ (name : List Byte) (t : crez_node), t ≠ .null → (∀ b ∈ name, index_in_bounds P b) →
      ∃ t1 r, add_symbol_loop P t name symbol = some (t1, r) := by
  intro name
  induction name with
  | nil =>
    intro t ht _
    cases t with
    | null => exact absurd rfl ht
    | node sym ch =>
      simp only [add_symbol_loop]
      cases ch 0 <;> simp
  | cons key rest ih =>
    intro t ht hb
    cases t with
    | null => exact absurd rfl ht
    | node sym ch =>
      simp only [add_symbol_loop]
      rw [array_slot_of_in_bounds (hb key (by simp))]
      simp only
      have hrest : ∀ b ∈ rest, index_in_bounds P b := fun b h => hb b (by simp [h])
      cases hc : ch key with
      | null =>
        obtain ⟨t1, r, h⟩ := ih (node_create none) (node_create_ne_null _) hrest
        simp [h]
      | node s c =>
        obtain ⟨t1, r, h⟩ := ih (.node s c) (by simp) hrest
        simp [h]

/-- The loop is not defined when a byte of the name indexes `chilren` out of bounds. -/
theorem add_symbol_loop_undefined (P : Platform) (symbol : List Byte) :
    ∀ (name : List Byte) (t : crez_node), (∃ b ∈ name, ¬ index_in_bounds P b) →
      add_symbol_loop P t name symbol = none := by
  intro name t hb
  cases h : add_symbol_loop P t name symbol with
  | none => rfl
  | some res =>
    obtain ⟨t1, r⟩ := res
    obtain ⟨b, hb1, hb2⟩ := hb
    exact absurd ((add_symbol_loop_spec P symbol name t t1 r h).2.2.1 b hb1) hb2

/-- Frame: a call for `name` leaves the terminal node of every other zero-free
name as it was. -/
theorem add_symbol_loop_frame (P : Platform) (symbol : List Byte) :
    ∀ (name : List Byte) (t t1 : crez_node) (r : Int) (other : List Byte),
      add_symbol_loop P t name symbol = some (t1, r) →
      zero_free name → zero_free other → other ≠ name →
      walk t1 (other ++ [0]) = walk t (other ++ [0]) := by
  intro name
  induction name with
  | nil =>
    intro t t1 r other h _ ho hne
    cases t with
    | null => simp [add_symbol_loop] at h
    | node sym ch =>
      cases other with
      | nil => exact absurd rfl hne
      | cons b m =>
        have hb : b ≠ 0 := ho b (by simp)
        simp only [add_symbol_loop] at h
        cases hc : ch 0 with
        | null =>
          rw [hc] at h
          simp only [Option.some.injEq, Prod.mk.injEq] at h
          obtain ⟨rfl, rfl⟩ := h
          simp [walk, Function.update_noteq hb]
        | node s c =>
          rw [hc] at h
          simp only [Option.some.injEq, Prod.mk.injEq] at h
          obtain ⟨rfl, rfl⟩ := h
          rfl
  | cons key rest ih =>
    intro t t1 r other h hn ho hne
    have hkey : key ≠ 0 := hn key (by simp)
    have hrest : zero_free rest := fun b hb => hn b (by simp [hb])
    cases t with
    | null => simp [add_symbol_loop] at h
    | node sym ch =>
      simp only [add_symbol_loop] at h
      cases hk : array_slot (char_value P key) with
      | none => rw [hk] at h; simp at h
      | some k =>
        obtain ⟨rfl, _⟩ := array_slot_some hk
        rw [hk] at h
        simp only at h
        -- the child the loop moves into, and the result of the rest of the loop
        generalize hchild : (match ch k with
          | .null => node_create none
          | .node s c => crez_node.node s c) = child at h
        have hwalk : ∀ p : List Byte, p ≠ [] → walk child p = walk (ch k) p := by
          intro p hp
          cases hc : ch k with
          | null => rw [hc] at hchild; rw [← hchild, walk_null]; exact walk_node_create none hp
          | node s c => rw [hc] at hchild; rw [← hchild]
        cases hrec : add_symbol_loop P child rest symbol with
        | none => rw [hrec] at h; simp at h
        | some res =>
          obtain ⟨c1, r1⟩ := res
          rw [hrec] at h
          simp only [Option.some.injEq, Prod.mk.injEq] at h
          obtain ⟨rfl, rfl⟩ := h
          cases other with
          | nil => simp [walk, Function.update_noteq (Ne.symm hkey)]
          | cons b m =>
            by_cases hbk : b = k
            · subst hbk
              have hm : m ≠ rest := fun e => hne (by rw [e])
              have hmz : zero_free m := fun x hx => ho x (by simp [hx])
              have := ih child c1 r1 m hrec hrest hmz hm
              show walk (Function.update ch b c1 b) (m ++ [0]) = walk (ch b) (m ++ [0])
              rw [Function.update_same, this]
              exact hwalk _ (by simp)
            · simp [walk, Function.update_noteq hbk]

/-! ## Lemmas: `node_add_symbol` and runs of calls -/

theorem terminal_eq (t : crez_node) (name : List Byte) :
    terminal t name = walk t (name ++ [0]) := rfl

theorem terminal_node_create (s : Option (List Byte)) (name : List Byte) :
    terminal (node_create s) name = .null :=
  walk_node_create s (by simp)

/-- The contract of one `node_add_symbol` call that returns. -/
theorem node_add_symbol_spec {P : Platform} {t t1 : crez_node} {name symbol : List Byte} {r : Int}
    (h : node_add_symbol P t name symbol = some (t1, r)) :
    t ≠ .null ∧ t1 ≠ .null ∧ (∀ b ∈ cstr name, index_in_bounds P b) ∧
    ((r = 1 ∧ terminal t (cstr name) = .null
        ∧ terminal t1 (cstr name) = node_create (some symbol))
      ∨ (r = 0 ∧ terminal t (cstr name) ≠ .null ∧ t1 = t)) :=
  add_symbol_loop_spec P symbol (cstr name) t t1 r h

/-- Every `node_add_symbol` call on a non-null root with in-bounds bytes returns. -/
theorem node_add_symbol_defined (P : Platform) {t : crez_node} (name symbol : List Byte)
    (ht : t ≠ .null) (hb : ∀ b ∈ cstr name, index_in_bounds P b) :
    ∃ t1 r, node_add_symbol P t name symbol = some (t1, r) :=
  add_symbol_loop_defined P symbol (cstr name) t ht hb

/-- Frame of one `node_add_symbol` call. -/
theorem node_add_symbol_frame {P : Platform} {t t1 : crez_node} {name symbol : List Byte} {r : Int}
    (h : node_add_symbol P t name symbol = some (t1, r)) {other : List Byte}
    (ho : zero_free other) (hne : other ≠ cstr name) :
    terminal t1 other = terminal t other :=
  add_symbol_loop_frame P symbol (cstr name) t t1 r other h (cstr_zero_free name) ho hne

/-- A call never removes or changes a terminal node that exists. -/
theorem node_add_symbol_keeps {P : Platform} {t t1 : crez_node} {name symbol : List Byte} {r : Int}
    (h : node_add_symbol P t name symbol = some (t1, r)) {other : List Byte}
    (ho : zero_free other) (hreg : terminal t other ≠ .null) :
    terminal t1 other = terminal t other := by
  by_cases hne : other = cstr name
  · subst hne
    rcases (node_add_symbol_spec h).2.2.2 with ⟨_, h1, _⟩ | ⟨_, _, rfl⟩
    · exact absurd h1 hreg
    · rfl
  · exact node_add_symbol_frame h ho hne

/-- A run of calls never removes or changes a terminal node that exists. -/
theorem add_all_keeps (P : Platform) :
    ∀ (calls : List (List Byte × List Byte)) (t t1 : crez_node), add_all P t calls = some t1 →
      ∀ other : List Byte, zero_free other → terminal t other ≠ .null →
        terminal t1 other = terminal t other := by
  intro calls
  induction calls with
  | nil =>
    intro t t1 h other _ _
    simp only [add_all, Option.some.injEq] at h
    rw [h]
  | cons c rest ih =>
    intro t t1 h other ho hreg
    obtain ⟨name, symbol⟩ := c
    simp only [add_all] at h
    cases hc : node_add_symbol P t name symbol with
    | none => rw [hc] at h; simp at h
    | some res =>
      obtain ⟨t2, r⟩ := res
      rw [hc] at h
      simp only at h
      have h2 := node_add_symbol_keeps hc ho hreg
      rw [ih t2 t1 h other ho (by rw [h2]; exact hreg), h2]

/-- A run of calls on a non-null root ends with a non-null root. -/
theorem add_all_ne_null (P : Platform) :
    ∀ (calls : List (List Byte × List Byte)) (t t1 : crez_node), t ≠ .null →
      add_all P t calls = some t1 → t1 ≠ .null := by
  intro calls
  induction calls with
  | nil =>
    intro t t1 ht h
    simp only [add_all, Option.some.injEq] at h
    rw [← h]; exact ht
  | cons c rest ih =>
    intro t t1 _ h
    obtain ⟨name, symbol⟩ := c
    simp only [add_all] at h
    cases hc : node_add_symbol P t name symbol with
    | none => rw [hc] at h; simp at h
    | some res =>
      obtain ⟨t2, r⟩ := res
      rw [hc] at h
      exact ih t2 t1 (node_add_symbol_spec hc).2.1 h

/-- The terminal node of a name after a run of calls: the one that was there, or
else the one created by the first call that names it, or else none. -/
theorem add_all_terminal (P : Platform) :
    ∀ (calls : List (List Byte × List Byte)) (t t1 : crez_node), add_all P t calls = some t1 →
      ∀ name : List Byte, zero_free name → terminal t name = .null →
        terminal t1 name =
          match first_registration calls name with
          | some symbol => node_create (some symbol)
          | none => .null := by
  intro calls
  induction calls with
  | nil =>
    intro t t1 h name _ hnull
    simp only [add_all, Option.some.injEq] at h
    subst h
    simpa [first_registration] using hnull
  | cons c rest ih =>
    intro t t1 h name hn hnull
    obtain ⟨n, s⟩ := c
    simp only [add_all] at h
    cases hc : node_add_symbol P t n s with
    | none => rw [hc] at h; simp at h
    | some res =>
      obtain ⟨t2, r⟩ := res
      rw [hc] at h
      simp only at h
      by_cases hname : cstr n = name
      · subst hname
        have hfirst : first_registration ((n, s) :: rest) (cstr n) = some s := by
          simp [first_registration]
        rw [hfirst]
        rcases (node_add_symbol_spec hc).2.2.2 with ⟨_, _, h2⟩ | ⟨_, h1, _⟩
        · rw [add_all_keeps P rest t2 t1 h _ hn (by rw [h2]; exact node_create_ne_null _), h2]
        · exact absurd hnull h1
      · have hfirst : first_registration ((n, s) :: rest) name = first_registration rest name := by
          simp [first_registration, List.find?_cons, hname]
        rw [hfirst]
        have hframe := node_add_symbol_frame hc hn (Ne.symm hname)
        exact ih t2 t1 h name hn (by rw [hframe]; exact hnull)

/-- The terminal node of every zero-free name in a trie built from an empty root. -/
theorem build_terminal {P : Platform} {calls : List (List Byte × List Byte)} {t : crez_node}
    (h : build P calls = some t) {name : List Byte} (hn : zero_free name) :
    terminal t name =
      match first_registration calls name with
      | some symbol => node_create (some symbol)
      | none => .null :=
  add_all_terminal P calls _ t h name hn (terminal_node_create none name)

theorem first_registration_eq_none {calls : List (List Byte × List Byte)} {name : List Byte} :
    first_registration calls name = none ↔ ∀ c ∈ calls, cstr c.1 ≠ name := by
  simp [first_registration, List.find?_eq_none]

theorem build_ne_null {P : Platform} {calls : List (List Byte × List Byte)} {t : crez_node}
    (h : build P calls = some t) : t ≠ .null :=
  add_all_ne_null P calls _ t (node_create_ne_null none) h

/-- The result of `node_add_symbol` on a built trie, for a name whose bytes index
`chilren` within bounds: the call returns, with 1 exactly when no earlier call
carried the name and 0 exactly when one did. -/
theorem node_add_symbol_result {P : Platform} {calls : List (List Byte × List Byte)}
    {t : crez_node} (h : build P calls = some t) (name symbol : List Byte)
    (hb : ∀ b ∈ cstr name, index_in_bounds P b) :
    ∃ t1 r, node_add_symbol P t name symbol = some (t1, r) ∧
      (r = 1 ∨ r = 0) ∧
      (r = 1 ↔ ∀ c ∈ calls, cstr c.1 ≠ cstr name) ∧
      (r = 0 ↔ ∃ c ∈ calls, cstr c.1 = cstr name) ∧
      (r = 1 ↔ terminal t (cstr name) = .null) := by
  obtain ⟨t1, r, hadd⟩ := node_add_symbol_defined P name symbol (build_ne_null h) hb
  have hterm := build_terminal h (cstr_zero_free name)
  refine ⟨t1, r, hadd, ?_⟩
  rcases (node_add_symbol_spec hadd).2.2.2 with ⟨rfl, hnull, _⟩ | ⟨rfl, hreg, _⟩
  · have hnone : first_registration calls (cstr name) = none := by
      cases hf : first_registration calls (cstr name) with
      | none => rfl
      | some s =>
        rw [hf] at hterm
        rw [hterm] at hnull
        exact absurd hnull (node_create_ne_null _)
    have hall := first_registration_eq_none.mp hnone
    refine ⟨Or.inl rfl, ⟨fun _ => hall, fun _ => rfl⟩, ⟨fun h0 => absurd h0 (by decide), ?_⟩,
      ⟨fun _ => hnull, fun _ => rfl⟩⟩
    rintro ⟨c, hc, hce⟩
    exact absurd hce (hall c hc)
  · have hsome : ¬ (∀ c ∈ calls, cstr c.1 ≠ cstr name) := by
      intro hall
      rw [first_registration_eq_none.mpr hall] at hterm
      exact hreg hterm
    refine ⟨Or.inr rfl, ⟨fun h0 => absurd h0 (by decide), fun hall => absurd hall hsome⟩,
      ⟨fun _ => ?_, fun _ => rfl⟩, ⟨fun h0 => absurd h0 (by decide), fun hn => absurd hn hreg⟩⟩
    by_contra hex
    exact hsome fun c hc hce => hex ⟨c, hc, hce⟩

/-- A run of calls on a non-null root returns when every byte of every name
indexes `chilren` within bounds. -/
theorem add_all_defined (P : Platform) :
    ∀ (calls : List (List Byte × List Byte)) (t : crez_node), t ≠ .null →
      (∀ c ∈ calls, ∀ b ∈ cstr c.1, index_in_bounds P b) →
      ∃ t1, add_all P t calls = some t1 := by
  intro calls
  induction calls with
  | nil => intro t _ _; exact ⟨t, rfl⟩
  | cons c rest ih =>
    intro t ht hb
    obtain ⟨name, symbol⟩ := c
    obtain ⟨t2, r, h2⟩ := node_add_symbol_defined P name symbol ht (hb (name, symbol) (by simp))
    obtain ⟨t1, h1⟩ := ih t2 (node_add_symbol_spec h2).2.1 (fun c hc => hb c (by simp [hc]))
    exact ⟨t1, by simp [add_all, h2, h1]⟩

/-- Two different names registered on an empty root, in this order: each has its
own terminal node, holding its own symbol. -/
theorem build_two_names (P : Platform) {n m : List Byte} (sn sm : List Byte)
    (hn : zero_free n) (hm : zero_free m) (hne : n ≠ m)
    (hbn : ∀ b ∈ n, index_in_bounds P b) (hbm : ∀ b ∈ m, index_in_bounds P b) :
    (build P [(n, sn), (m, sm)]).map (fun u => (terminal u n, terminal u m))
      = some (node_create (some sn), node_create (some sm)) := by
  have hcn := cstr_of_zero_free hn
  have hcm := cstr_of_zero_free hm
  obtain ⟨t, ht⟩ := add_all_defined P [(n, sn), (m, sm)] (node_create none)
    (node_create_ne_null none) (by
      intro c hc b hb
      simp only [List.mem_cons, List.mem_singleton, List.not_mem_nil, or_false] at hc
      rcases hc with rfl | rfl
      · rw [hcn] at hb; exact hbn b hb
      · rw [hcm] at hb; exact hbm b hb)
  have ht1 : build P [(n, sn), (m, sm)] = some t := ht
  have h1 := build_terminal ht1 hn
  have h2 := build_terminal ht1 hm
  have f1 : first_registration [(n, sn), (m, sm)] n = some sn := by
    simp [first_registration, hcn]
  have f2 : first_registration [(n, sn), (m, sm)] m = some sm := by
    simp [first_registration, List.find?_cons, hcn, hcm, hne]
  rw [f1] at h1
  rw [f2] at h2
  rw [ht1]
  simp [h1, h2]

/-! # The claims -/

set_option maxRecDepth 100000

/-- C2, the defect: where plain `char` is signed, `node_add_symbol` on a fresh
root with the one-byte name 0xC8 reads `key = -56` and indexes `chilren[-56]`,
outside the 256 slots, so the call has no defined result; the claim has the
first insertion of every zero-free name return 1. -/
theorem node_add_symbol_signed_key_out_of_bounds :
    char_value signed_char_abi 200 = -56
    ∧ array_slot (char_value signed_char_abi 200) = none
    ∧ node_add_symbol signed_char_abi (node_create none) [200] (lit "R") = none := by
  refine ⟨by decide, by decide, rfl⟩

/-- C3, as stated, fails: take for `t` the trie that holds "a" with symbol "X"
(built from an empty root by one call). Inserting ("a", "Y") returns 0, and
inserting ("a", "Z") into the result returns 0; after both, the terminal node
of "a" holds "X", the first registration, and not the symbol "Y" of the first
of the two insertions. -/
theorem first_of_two_insertions_not_kept :
    build unsigned_char_abi [(lit "a", lit "X")] = some (one_byte_trie 97 (lit "X"))
    ∧ (node_add_symbol unsigned_char_abi (one_byte_trie 97 (lit "X")) (lit "a") (lit "Y")).map
        (fun res => (res.2, symbol_of (terminal res.1 (lit "a"))))
      = some (0, some (lit "X"))
    ∧ ((node_add_symbol unsigned_char_abi (one_byte_trie 97 (lit "X")) (lit "a") (lit "Y")).bind
        (fun res => node_add_symbol unsigned_char_abi res.1 (lit "a") (lit "Z"))).map
        (fun res => (res.2, symbol_of (terminal res.1 (lit "a"))))
      = some (0, some (lit "X"))
    ∧ lit "X" ≠ lit "Y" := by
  refine ⟨rfl, by decide, by decide, by decide⟩

/-- C3, amended: whenever inserting `(name, s1)` into a trie returns, inserting
`(name, s2)` into the resulting trie returns 0 and leaves that trie exactly as
it was; the terminal node of the name exists; it is the node created with a
copy of `s1` when the first insertion returned 1, and when it returned 0 the
first insertion had changed nothing either. -/
theorem first_registration_wins (P : Platform) (t t1 : crez_node) (name s1 s2 : List Byte)
    (r : Int) (h : node_add_symbol P t name s1 = some (t1, r)) :
    node_add_symbol P t1 name s2 = some (t1, 0)
    ∧ terminal t1 (cstr name) ≠ .null
    ∧ (r = 1 ∨ r = 0)
    ∧ (r = 1 → terminal t (cstr name) = .null
        ∧ terminal t1 (cstr name) = node_create (some s1)
        ∧ symbol_of (terminal t1 (cstr name)) = some (cstr s1))
    ∧ (r = 0 → t1 = t ∧ terminal t (cstr name) ≠ .null) := by
  obtain ⟨_, ht1, hb, hcase⟩ := node_add_symbol_spec h
  have hreg : terminal t1 (cstr name) ≠ .null := by
    rcases hcase with ⟨_, _, h2⟩ | ⟨_, h1, rfl⟩
    · rw [h2]; exact node_create_ne_null _
    · exact h1
  obtain ⟨t2, r2, h2⟩ := node_add_symbol_defined P name s2 ht1 hb
  have hsecond : node_add_symbol P t1 name s2 = some (t1, 0) := by
    rcases (node_add_symbol_spec h2).2.2.2 with ⟨_, hnull, _⟩ | ⟨rfl, _, rfl⟩
    · exact absurd hnull hreg
    · exact h2
  refine ⟨hsecond, hreg, ?_, ?_, ?_⟩
  · rcases hcase with ⟨hr, _⟩ | ⟨hr, _⟩
    · exact Or.inl hr
    · exact Or.inr hr
  · intro hr
    rcases hcase with ⟨_, hnull, hnew⟩ | ⟨hr0, _⟩
    · exact ⟨hnull, hnew, by rw [hnew]; rfl⟩
    · rw [hr] at hr0; exact absurd hr0 (by decide)
  · intro hr
    rcases hcase with ⟨hr1, _⟩ | ⟨_, hold, heq⟩
    · rw [hr] at hr1; exact absurd hr1 (by decide)
    · exact ⟨heq, hold⟩

/-- Witness of `first_registration_wins`: "a" inserted with "Y" into an empty
root, then again with "Z". -/
theorem first_registration_wins_witness :
    node_add_symbol unsigned_char_abi (node_create none) (lit "a") (lit "Y")
      = some (one_byte_trie 97 (lit "Y"), 1)
    ∧ (node_add_symbol unsigned_char_abi (one_byte_trie 97 (lit "Y")) (lit "a") (lit "Z")
        = some (one_byte_trie 97 (lit "Y"), 0)
      ∧ terminal (one_byte_trie 97 (lit "Y")) (cstr (lit "a")) ≠ .null
      ∧ ((1 : Int) = 1 ∨ (1 : Int) = 0)
      ∧ ((1 : Int) = 1 → terminal (node_create none) (cstr (lit "a")) = .null
          ∧ terminal (one_byte_trie 97 (lit "Y")) (cstr (lit "a")) = node_create (some (lit "Y"))
          ∧ symbol_of (terminal (one_byte_trie 97 (lit "Y")) (cstr (lit "a")))
              = some (cstr (lit "Y")))
      ∧ ((1 : Int) = 0 → one_byte_trie 97 (lit "Y") = node_create none
          ∧ terminal (node_create none) (cstr (lit "a")) ≠ .null)) :=
  ⟨rfl, first_registration_wins unsigned_char_abi (node_create none)
    (one_byte_trie 97 (lit "Y")) (lit "a") (lit "Y") (lit "Z") 1 rfl⟩

/-- C4: after `node_add_symbol(root, name, symbol)` returns 1, walking from the
root by the bytes of the name and then into slot 0 reaches a node whose symbol
is a copy of the given symbol, and the same holds after any further run of
`node_add_symbol` calls on that root. -/
theorem registration_postcondition (P : Platform) (root root1 : crez_node)
    (name symbol : List Byte) (h : node_add_symbol P root name symbol = some (root1, 1)) :
    symbol_of (walk root1 (cstr name ++ [0])) = some (cstr symbol)
    ∧ ∀ (calls : List (List Byte × List Byte)) (root2 : crez_node),
        add_all P root1 calls = some root2 →
          symbol_of (walk root2 (cstr name ++ [0])) = some (cstr symbol) := by
  have hnew : terminal root1 (cstr name) = node_create (some symbol) := by
    rcases (node_add_symbol_spec h).2.2.2 with ⟨_, _, h2⟩ | ⟨h0, _⟩
    · exact h2
    · exact absurd h0 (by decide)
  have hsym : symbol_of (walk root1 (cstr name ++ [0])) = some (cstr symbol) := by
    rw [← terminal_eq, hnew]; rfl
  refine ⟨hsym, ?_⟩
  intro calls root2 hrun
  have hkeep := add_all_keeps P calls root1 root2 hrun (cstr name) (cstr_zero_free name)
    (by rw [hnew]; exact node_create_ne_null _)
  rw [← terminal_eq, hkeep, terminal_eq]
  exact hsym

/-- Witness of `registration_postcondition`: "a" registered with "Y" on an empty
root. -/
theorem registration_postcondition_witness :
    node_add_symbol unsigned_char_abi (node_create none) (lit "a") (lit "Y")
      = some (one_byte_trie 97 (lit "Y"), 1)
    ∧ (symbol_of (walk (one_byte_trie 97 (lit "Y")) (cstr (lit "a") ++ [0]))
        = some (cstr (lit "Y"))
      ∧ ∀ (calls : List (List Byte × List Byte)) (root2 : crez_node),
          add_all unsigned_char_abi (one_byte_trie 97 (lit "Y")) calls = some root2 →
            symbol_of (walk root2 (cstr (lit "a") ++ [0])) = some (cstr (lit "Y"))) :=
  ⟨rfl, registration_postcondition unsigned_char_abi (node_create none)
    (one_byte_trie 97 (lit "Y")) (lit "a") (lit "Y") rfl⟩

/-- C5: inserting a name `n` changes nothing about a different name `m`: the
terminal node of `m` is the same node as before, so `m` is registered after the
insertion exactly if it was before and its symbol is the same. And "a" and "ab"
inserted into an empty root, in either order, each get a terminal node of their
own, under the walks a,0 and a,b,0, holding their own symbols. -/
theorem prefix_independence (P : Platform) (t t1 : crez_node) (n m symbol : List Byte) (r : Int)
    (hn : zero_free n) (hm : zero_free m) (hne : n ≠ m)
    (h : node_add_symbol P t n symbol = some (t1, r)) :
    walk t1 (m ++ [0]) = walk t (m ++ [0])
    ∧ (registered t1 m ↔ registered t m)
    ∧ symbol_of (terminal t1 m) = symbol_of (terminal t m)
    ∧ (∀ sa sab : List Byte,
        (build P [(lit "a", sa), (lit "ab", sab)]).map
            (fun u => (walk u [97, 0], walk u [97, 98, 0]))
          = some (node_create (some sa), node_create (some sab))
        ∧ (build P [(lit "ab", sab), (lit "a", sa)]).map
            (fun u => (walk u [97, 0], walk u [97, 98, 0]))
          = some (node_create (some sa), node_create (some sab))) := by
  have hframe : terminal t1 m = terminal t m :=
    node_add_symbol_frame h hm (by rw [cstr_of_zero_free hn]; exact Ne.symm hne)
  refine ⟨hframe, by unfold registered; rw [hframe], by rw [hframe], ?_⟩
  intro sa sab
  have ha : lit "a" = [97] := rfl
  have hab : lit "ab" = [97, 98] := rfl
  have hza : zero_free (lit "a") := by rw [ha]; decide
  have hzab : zero_free (lit "ab") := by rw [hab]; decide
  have hba : ∀ b ∈ lit "a", index_in_bounds P b := by
    intro b hb; rw [ha] at hb; simp at hb; subst hb; exact Or.inr (by decide)
  have hbab : ∀ b ∈ lit "ab", index_in_bounds P b := by
    intro b hb; rw [hab] at hb; simp at hb
    rcases hb with rfl | rfl <;> exact Or.inr (by decide)
  have h1 := build_two_names P sa sab hza hzab (by rw [ha, hab]; decide) hba hbab
  have h2 := build_two_names P sab sa hzab hza (by rw [ha, hab]; decide) hbab hba
  simp only [terminal_eq, ha, hab] at h1 h2
  constructor
  · simpa using h1
  · cases hb : build P [([97, 98], sab), ([97], sa)] with
    | none => rw [hb] at h2; simp at h2
    | some u =>
      rw [hb] at h2
      simp only [Option.map_some', Option.some.injEq, Prod.mk.injEq] at h2
      rw [hab, ha, hb]
      simpa using ⟨h2.2, h2.1⟩

/-- Witness of `prefix_independence`: "ab" inserted into an empty root, observed
at the name "a". -/
theorem prefix_independence_witness :
    zero_free (lit "ab") ∧ zero_free (lit "a") ∧ lit "ab" ≠ lit "a"
    ∧ node_add_symbol signed_char_abi (node_create none) (lit "ab") (lit "Rab")
        = some (.node none (single_child 97 (.node none (single_child 98
            (.node none (single_child 0 (node_create (some (lit "Rab")))))))), 1)
    ∧ (walk (.node none (single_child 97 (.node none (single_child 98
            (.node none (single_child 0 (node_create (some (lit "Rab")))))))))
          (lit "a" ++ [0])
        = walk (node_create none) (lit "a" ++ [0])
      ∧ (registered (.node none (single_child 97 (.node none (single_child 98
            (.node none (single_child 0 (node_create (some (lit "Rab")))))))))
          (lit "a") ↔ registered (node_create none) (lit "a"))
      ∧ symbol_of (terminal (.node none (single_child 97 (.node none (single_child 98
            (.node none (single_child 0 (node_create (some (lit "Rab")))))))))
          (lit "a")) = symbol_of (terminal (node_create none) (lit "a"))
      ∧ (∀ sa sab : List Byte,
          (build signed_char_abi [(lit "a", sa), (lit "ab", sab)]).map
              (fun u => (walk u [97, 0], walk u [97, 98, 0]))
            = some (node_create (some sa), node_create (some sab))
          ∧ (build signed_char_abi [(lit "ab", sab), (lit "a", sa)]).map
              (fun u => (walk u [97, 0], walk u [97, 98, 0]))
            = some (node_create (some sa), node_create (some sab)))) :=
  ⟨by decide, by decide, by decide, rfl,
    prefix_independence signed_char_abi (node_create none) _ (lit "ab") (lit "a") (lit "Rab") 1
      (by decide) (by decide) (by decide) rfl⟩

/-- The text `write_node` writes for a just-created root. -/
theorem write_node_empty :
    write_node (node_create none) 0
      = lit "  switch (name[0]) \x7b\n    case 0: return (void *) 0;\n    default: return (void *) 0;\n  \x7d\n" := by
  decide

/-- The statement `write_node` writes for a just-created root. -/
theorem node_stmt_empty :
    node_stmt (node_create none) 0
      = .switch_name 0 (.seq (.labeled .case_zero (.ret none)) (.labeled .default (.ret none))) := by
  decide

/-- The first byte of an argument string is always readable. -/
theorem name_at_zero (P : Platform) (name : List Byte) : ∃ v, name_at P name 0 = some v := by
  unfold name_at
  by_cases h : 0 < strlen name
  · exact ⟨_, if_pos h⟩
  · exact ⟨0, by rw [if_neg h, if_pos (by omega)]⟩

/-- C6: for a just-created root and any key, `write_locate_function` appends to the
source stream a function whose body is one `switch` over `name[0]` with the two
arms `case 0: return (void *) 0;` and `default: return (void *) 0;` and no other;
this text is the concrete syntax of the statement `node_stmt` gives, and called
on any argument string, the empty one included, the function returns null. -/
theorem empty_tree_lookup (P : Platform) (h_file : FilePtr) (written key name : List Byte) :
    (write_locate_function h_file (some written) key (node_create none)).2
      = some (written ++ (lit "struct c_rez_resource const * c_rez_locate_" ++ cstr key
          ++ lit "(const char name[]) \x7b\n  switch (name[0]) \x7b\n    case 0: return (void *) 0;\n    default: return (void *) 0;\n  \x7d\n\x7d\n"))
    ∧ node_stmt (node_create none) 0
      = .switch_name 0 (.seq (.labeled .case_zero (.ret none)) (.labeled .default (.ret none)))
    ∧ render (node_stmt (node_create none) 0) 2 = write_node (node_create none) 0
    ∧ c_rez_locate P (node_create none) name = some none := by
  refine ⟨?_, node_stmt_empty, by decide, ?_⟩
  · have e1 : lit "struct c_rez_resource const * c_rez_locate_"
        = lit "struct c_rez_resource const * " ++ lit "c_rez_locate_" := rfl
    have e2 : lit "(const char name[]) \x7b\n  switch (name[0]) \x7b\n    case 0: return (void *) 0;\n    default: return (void *) 0;\n  \x7d\n\x7d\n"
        = lit "(const char name[]) \x7b\n"
          ++ lit "  switch (name[0]) \x7b\n    case 0: return (void *) 0;\n    default: return (void *) 0;\n  \x7d\n"
          ++ lit "\x7d\n" := rfl
    rw [e1, e2]
    simp only [write_locate_function, locate_definition, append_to, write_node_empty,
      Option.isSome_some, if_true, Option.map_some', List.append_assoc]
  · unfold c_rez_locate call_function
    rw [node_stmt_empty]
    have hwf : well_formed P (.switch_name 0 (.seq (.labeled .case_zero (.ret none))
        (.labeled .default (.ret none)))) = true := by
      simp [well_formed, labels_of, label_value, label_ok]
    rw [if_pos hwf]
    obtain ⟨v, hv⟩ := name_at_zero P name
    by_cases h0 : v = 0
    · subst h0
      simp [exec, hv, labels_of, label_value]
    · have h1 : ¬ (0 = v) := fun e => h0 e.symm
      simp [exec, hv, labels_of, label_value, h0, h1]

/-- C7: `write_locate_function` appends to the header stream, when there is one,
the prototype and nothing else, on one line (the text has no new-line unless
the key has one); it appends to the source stream, when there is one, the
function definition, the header line, the text of `write_node` for the root and
the closing brace; a stream that is absent stays absent, and with both absent
the call returns with nothing written. -/
theorem write_locate_function_streams (h_file c_file : FilePtr) (key : List Byte)
    (root : crez_node) :
    write_locate_function h_file c_file key root
      = (h_file.map (fun written => written
            ++ (lit "struct c_rez_resource const * c_rez_locate_" ++ cstr key
                ++ lit "(const char name[]);")),
         c_file.map (fun written => written
            ++ (lit "struct c_rez_resource const * c_rez_locate_" ++ cstr key
                ++ lit "(const char name[]) \x7b\n" ++ write_node root 0 ++ lit "\x7d\n")))
    ∧ write_locate_function none none key root = (none, none)
    ∧ (lit "struct c_rez_resource const * c_rez_locate_" ++ cstr key
          ++ lit "(const char name[]);").count 10 = (cstr key).count 10 := by
  have e1 : lit "struct c_rez_resource const * c_rez_locate_"
      = lit "struct c_rez_resource const * " ++ lit "c_rez_locate_" := rfl
  refine ⟨?_, rfl, ?_⟩
  · rw [e1]
    cases h_file <;> cases c_file <;>
      simp [write_locate_function, locate_definition, locate_prototype, append_to]
  · have c1 : (lit "struct c_rez_resource const * c_rez_locate_").count 10 = 0 := by decide
    have c2 : (lit "(const char name[]);").count 10 = 0 := by decide
    simp only [List.count_append, c1, c2]
    omega

/-! ## Lemmas: `make_identifier` -/

theorem sanitized_ne_zero (P : Platform) (b : Byte) : sanitized P b ≠ 0 := by
  unfold sanitized
  split
  · rename_i h
    intro hb
    subst hb
    revert h
    unfold isalnum char_value
    cases P.char_signed <;> simp
  · decide

/-- A sanitized byte is an ASCII digit, an ASCII letter or the underscore. -/
theorem sanitized_alnum (P : Platform) (b : Byte) :
    (48 ≤ (sanitized P b).val ∧ (sanitized P b).val ≤ 57)
    ∨ (65 ≤ (sanitized P b).val ∧ (sanitized P b).val ≤ 90)
    ∨ (97 ≤ (sanitized P b).val ∧ (sanitized P b).val ≤ 122)
    ∨ sanitized P b = 95 := by
  unfold sanitized
  split
  · rename_i h
    unfold isalnum char_value at h
    have hb := b.isLt
    split at h
    · simp only [decide_eq_true_eq] at h
      omega
    · simp only [decide_eq_true_eq] at h
      omega
  · right; right; right; rfl

/-- One copying loop, run on a buffer whose bytes from `dst_i` on are zero, with
room for `len` bytes. -/
theorem copy_loop_spec (P : Platform) (src : List Byte) :
    ∀ (len : Nat) (done : List Byte) (k : Nat), len ≤ k →
      copy_loop P src len (done ++ List.replicate k 0, done.length)
        = (done ++ (List.range len).map (fun i => sanitized P (src.getD i 0))
            ++ List.replicate (k - len) 0, done.length + len) := by
  intro len
  induction len with
  | zero => intro done k _; simp [copy_loop]
  | succ len ih =>
    intro done k hk
    have hstep := ih done k (by omega)
    unfold copy_loop at hstep ⊢
    rw [List.range_succ, List.foldl_append, hstep]
    simp only [List.foldl_cons, List.foldl_nil, List.map_append, List.map_cons, List.map_nil]
    have hrep : List.replicate (k - len) (0 : Byte) = 0 :: List.replicate (k - (len + 1)) 0 := by
      rw [show k - len = (k - (len + 1)) + 1 by omega, List.replicate_succ]
    rw [hrep]
    congr 1
    rw [List.set_append]
    simp [List.length_append]

theorem getD_cstr (src : List Byte) (i : Nat) (h : i < strlen src) :
    src.getD i 0 = (cstr src).getD i 0 := by
  unfold strlen cstr at *
  induction src generalizing i with
  | nil => simp at h
  | cons b rest ih =>
    by_cases hb : b ≠ 0
    · rw [List.takeWhile_cons_of_pos (by simpa using hb)] at h ⊢
      cases i with
      | zero => rfl
      | succ i =>
        simp only [List.length_cons, Nat.add_lt_add_iff_right] at h
        simpa using ih i h
    · rw [List.takeWhile_cons_of_neg (by simpa using hb)] at h
      simp at h

theorem map_range_sanitized (P : Platform) (src : List Byte) :
    (List.range (strlen src)).map (fun i => sanitized P (src.getD i 0))
      = (cstr src).map (sanitized P) := by
  apply List.ext_getElem
  · simp [strlen]
  · intro i h1 h2
    simp only [List.length_map, List.length_range] at h1
    simp only [List.getElem_map, List.getElem_range]
    rw [getD_cstr src i h1]
    congr 1
    rw [List.getD_eq_getElem _ _ (by simpa [strlen] using h1)]

/-- The buffer `make_identifier` returns: the sanitized prefix, an underscore,
the sanitized input, and `sizeof '_'` zero bytes. -/
theorem make_identifier_buffer (P : Platform) (input pfx : List Byte) :
    make_identifier P input pfx
      = (cstr pfx).map (sanitized P) ++ [95] ++ (cstr input).map (sanitized P)
        ++ List.replicate P.sizeof_int 0 := by
  have hpos := P.sizeof_int_pos
  unfold make_identifier
  simp only
  have h1 := copy_loop_spec P pfx (strlen pfx) [] (strlen input + strlen pfx + P.sizeof_int + 1)
    (by omega)
  simp only [List.nil_append, List.length_nil, Nat.zero_add] at h1
  rw [h1, map_range_sanitized]
  simp only
  have hlen1 : ((cstr pfx).map (sanitized P)).length = strlen pfx := by simp [strlen]
  have hset1 : (List.map (sanitized P) (cstr pfx)
      ++ List.replicate (strlen input + strlen pfx + P.sizeof_int + 1 - strlen pfx) 0).set
        (strlen pfx) 95
      = (List.map (sanitized P) (cstr pfx) ++ [95])
        ++ List.replicate (strlen input + P.sizeof_int) 0 := by
    rw [show strlen input + strlen pfx + P.sizeof_int + 1 - strlen pfx
      = (strlen input + P.sizeof_int) + 1 by omega, List.replicate_succ, List.set_append]
    simp [hlen1]
  rw [hset1]
  have h2 := copy_loop_spec P input (strlen input) (List.map (sanitized P) (cstr pfx) ++ [95])
    (strlen input + P.sizeof_int) (by omega)
  simp only [List.length_append, hlen1, List.length_singleton] at h2
  rw [h2, map_range_sanitized]
  simp only
  rw [show strlen input + P.sizeof_int - strlen input = (P.sizeof_int - 1) + 1 by omega,
    show strlen input + strlen pfx + P.sizeof_int + 1 - 1
      = (List.map (sanitized P) (cstr pfx) ++ [95] ++ List.map (sanitized P) (cstr input)
          ++ List.replicate (P.sizeof_int - 1) 0).length by
        simp [strlen]; omega]
  rw [List.replicate_succ', ← List.append_assoc, List.set_append]
  simp only [lt_self_iff_false, if_false, Nat.sub_self, List.set_cons_zero]
  rw [List.append_assoc _ (List.replicate _ _), ← List.replicate_succ',
    show P.sizeof_int - 1 + 1 = P.sizeof_int by omega]

theorem cstr_append_zero (s rest : List Byte) (h : zero_free s) :
    cstr (s ++ 0 :: rest) = s := by
  unfold cstr
  induction s with
  | nil => simp
  | cons b t ih =>
    have hb : b ≠ 0 := h b (by simp)
    rw [List.cons_append, List.takeWhile_cons_of_pos (by simpa using hb),
      ih (fun x hx => h x (by simp [hx]))]

/-- The string in the buffer `make_identifier` returns. -/
theorem make_identifier_cstr (P : Platform) (input pfx : List Byte) :
    cstr (make_identifier P input pfx)
      = (cstr pfx).map (sanitized P) ++ [95] ++ (cstr input).map (sanitized P) := by
  rw [make_identifier_buffer]
  have hpos := P.sizeof_int_pos
  rw [show P.sizeof_int = (P.sizeof_int - 1) + 1 by omega, List.replicate_succ]
  apply cstr_append_zero
  intro b hb
  simp only [List.append_assoc, List.mem_append, List.mem_map, List.mem_singleton,
    List.mem_cons, List.not_mem_nil, or_false] at hb
  rcases hb with ⟨x, _, rfl⟩ | rfl | ⟨x, _, rfl⟩
  · exact sanitized_ne_zero P x
  · decide
  · exact sanitized_ne_zero P x

/-- A loop of `write_files` that starts without a source stream ends without one. -/
theorem write_files_loop_no_source (P : Platform) (W : Files) (key : List Byte) :
    ∀ (files : List (List Byte)) (st st1 : LoopState), st.c_file = none →
      write_files_loop P W key st files = .ok st1 → st1.c_file = none := by
  intro files
  induction files with
  | nil =>
    intro st st1 hc h
    simp only [write_files_loop, Except.ok.injEq] at h
    rw [← h]; exact hc
  | cons file rest ih =>
    intro st st1 hc h
    simp only [write_files_loop] at h
    cases hstep : write_files_step P W key st file with
    | error e => rw [hstep] at h; simp at h
    | ok st2 =>
      rw [hstep] at h
      simp only at h
      refine ih st2 st1 ?_ h
      unfold write_files_step at hstep
      split at hstep
      · simp only [Except.ok.injEq] at hstep
        rw [← hstep]; exact hc
      · simp only at hstep
        split at hstep
        · simp at hstep
        · rename_i root1 added hadd
          have hw : (if added ≠ 0 then
              write_file W file (make_identifier P file key) st.h_file st.c_file st.wants_text
              else (st.h_file, st.c_file)).2 = none := by
            split
            · unfold write_file
              rw [hc]
              split
              · rfl
              · split <;> simp
            · exact hc
          rw [hw] at hstep
          simp [fprintf] at hstep

/-- Without a source output, `write_files` never runs to completion: whatever the
key, the header path and the input files, the run stops with a fault. -/
theorem write_files_header_only_faults (P : Platform) (W : Files) (opts : crez_opts)
    (hc : opts.c_output = none) (out : List Byte × List Byte) :
    write_files P W opts ≠ .ok out := by
  intro h
  unfold write_files at h
  simp only [hc, open_output] at h
  split at h
  · simp at h
  · split at h
    · simp at h
    · split at h
      · simp at h
      · split at h
        · simp at h
        · simp only [Option.isSome_none, Bool.false_eq_true, if_false] at h
          split at h
          · simp at h
          · rename_i st hloop
            have hnone := write_files_loop_no_source P W opts.key opts.files _ st rfl hloop
            unfold write_files_finish at h
            simp only at h
            split at h
            · simp at h
            · split at h
              · simp at h
              · have hl : (write_locate_function st.h_file st.c_file opts.key st.root).2 = none := by
                  rw [hnone]; rfl
                rw [hl] at h
                simp [fclose] at h

/-- C8, the defect: with a header output and no source output, `c_file` stays
null, and the first round of the loop of `write_files` for an input file calls
`fprintf(c_file, "\n")` on it, which is undefined; the run of
`c-rez -k k -h out.h a.txt` stops there instead of producing the header, where
the help text promises that only the header gets generated. -/
theorem header_only_run_is_undefined :
    write_files signed_char_abi sample_files
        ⟨lit "k", some (lit "out.h"), none, [lit "a.txt"]⟩
      = .error Fault.undefined
    ∧ write_files unsigned_char_abi sample_files
        ⟨lit "k", some (lit "out.h"), none, [lit "a.txt"]⟩
      = .error Fault.undefined
    ∧ fprintf none (lit "\n") = .error Fault.undefined
    ∧ fclose none = .error Fault.undefined := by
  refine ⟨rfl, rfl, rfl, rfl⟩

/-- C9, the defect: the names "a.b" and "a_b" are different keys of the trie, so
`node_add_symbol` returns 1 for both and both resources are written, yet
`make_identifier` gives both the identifier `k_a_b`: after the loop of
`write_files` the header stream holds two declarations of `k_a_b` and the
source stream two definitions of `k_a_b_data` and of `k_a_b`. -/
theorem colliding_identifiers_both_written :
    cstr (make_identifier signed_char_abi (lit "a.b") (lit "k")) = lit "k_a_b"
    ∧ cstr (make_identifier signed_char_abi (lit "a_b") (lit "k")) = lit "k_a_b"
    ∧ (node_add_symbol signed_char_abi (node_create none) (lit "a.b")
          (make_identifier signed_char_abi (lit "a.b") (lit "k"))).bind
        (fun first =>
          (node_add_symbol signed_char_abi first.1 (lit "a_b")
              (make_identifier signed_char_abi (lit "a_b") (lit "k"))).map
            (fun second => (first.2, second.2)))
      = some (1, 1)
    ∧ (match write_files_loop signed_char_abi sample_files (lit "k")
          ⟨node_create none, some [], some [], 0⟩ [lit "a.b", lit "a_b"] with
        | .ok st => (st.h_file, st.c_file)
        | .error _ => (none, none))
      = (some (lit "extern c_rez_resource const k_a_b;\nextern c_rez_resource const k_a_b;\n"),
         some (lit "unsigned char const k_a_b_data[] = \x7b\n     1\n\x7d;\nstruct c_rez_resource const k_a_b = \x7b k_a_b_data, 1 \x7d;\n\nunsigned char const k_a_b_data[] = \x7b\n     2\n\x7d;\nstruct c_rez_resource const k_a_b = \x7b k_a_b_data, 1 \x7d;\n\n")) := by
  refine ⟨by decide, by decide, by decide, by decide⟩

/-- C10: for every input and prefix string, the string `make_identifier` returns
is not empty, its length is that of the prefix plus one plus that of the input,
each of its bytes is an ASCII digit, an ASCII letter or the underscore, and the
result depends on nothing but the two strings (not on what their buffers hold
after the terminator). -/
theorem make_identifier_string (P : Platform) (input pfx : List Byte) :
    cstr (make_identifier P input pfx) ≠ []
    ∧ strlen (make_identifier P input pfx) = strlen pfx + 1 + strlen input
    ∧ (∀ b ∈ cstr (make_identifier P input pfx),
        (48 ≤ b.val ∧ b.val ≤ 57) ∨ (65 ≤ b.val ∧ b.val ≤ 90) ∨ (97 ≤ b.val ∧ b.val ≤ 122)
        ∨ b = 95)
    ∧ make_identifier P input pfx = make_identifier P (cstr input) (cstr pfx) := by
  refine ⟨?_, ?_, ?_, ?_⟩
  · rw [make_identifier_cstr]; simp
  · unfold strlen
    rw [make_identifier_cstr]
    simp only [List.length_append, List.length_map, List.length_singleton]
  · intro b hb
    rw [make_identifier_cstr] at hb
    simp only [List.append_assoc, List.mem_append, List.mem_map, List.mem_singleton,
      List.mem_cons, List.not_mem_nil, or_false] at hb
    rcases hb with ⟨x, _, rfl⟩ | rfl | ⟨x, _, rfl⟩
    · exact sanitized_alnum P x
    · right; right; right; rfl
    · exact sanitized_alnum P x
  · rw [make_identifier_buffer, make_identifier_buffer, cstr_cstr, cstr_cstr]

/-- C1, the defect: for the trie that holds the one-byte name made of a single
quote, `write_node` writes the label `case` quote quote quote colon, which is
not a character constant of C; the emitted text is not a C function
(`well_formed` is false), so the call for the registered name has no result
(`c_rez_locate` gives none, neither null nor an address), where the claim has
it return the address of the symbol. -/
theorem quote_in_name_breaks_lookup :
    (build unsigned_char_abi [([39], lit "R")]).map (fun t => write_node t 0)
      = some (lit "  switch (name[0]) \x7b\n    case 0: return (void *) 0;\n    case \x27\x27\x27:\n    switch (name[1]) \x7b\n      case 0: return &R;\n      default: return (void *) 0;\n    \x7d\n    default: return (void *) 0;\n  \x7d\n")
    ∧ char_constant_value unsigned_char_abi 39 = none
    ∧ (build unsigned_char_abi [([39], lit "R")]).map
        (fun t => well_formed unsigned_char_abi (node_stmt t 0)) = some false
    ∧ (build unsigned_char_abi [([39], lit "R")]).map
        (fun t => c_rez_locate unsigned_char_abi t [39]) = some none
    ∧ (build signed_char_abi [([39], lit "R")]).map
        (fun t => c_rez_locate signed_char_abi t [39]) = some none := by
  refine ⟨by decide, by decide, by decide, by decide, by decide⟩

/-! ## Lemmas: the emitted statement and its execution -/

theorem char_value_injective (P : Platform) {a b : Byte} (h : char_value P a = char_value P b) :
    a = b := by
  unfold char_value at h
  have ha := a.isLt
  have hb := b.isLt
  apply Fin.ext
  split at h <;> split at h <;> omega

theorem char_value_ne_zero (P : Platform) {b : Byte} (hb : b ≠ 0) : char_value P b ≠ 0 := by
  unfold char_value
  have h1 := b.isLt
  have h2 : b.val ≠ 0 := fun e => hb (Fin.ext e)
  split <;> omega

theorem label_value_case_char (P : Platform) {i : Byte} (hi : quotable i) :
    label_value P (.case_char i) = some (char_value P i) := by
  simp only [label_value, char_constant_value]
  rw [if_neg]
  rintro (h | h | h)
  · exact hi.1 h
  · exact hi.2.1 h
  · exact hi.2.2 h

theorem child_indices_eq : child_indices = (List.finRange 255).map Fin.succ := by
  unfold child_indices
  rw [List.finRange_succ_eq_map]
  rfl

theorem mem_child_indices (i : Byte) : i ∈ child_indices ↔ i ≠ 0 := by
  rw [child_indices_eq]
  simp only [List.mem_map, List.mem_finRange, true_and]
  exact Fin.exists_succ_eq

theorem child_indices_nodup : child_indices.Nodup := by
  rw [child_indices_eq]
  exact (List.nodup_finRange 255).map (Fin.succ_injective 255)

theorem exec_returned (P : Platform) (name : List Byte) (s : CStmt) (result : Option (List Byte)) :
    exec P name s (.returned result) = .returned result := by
  cases s <;> simp [exec]

theorem node_stmt_eq (sym : Option (List Byte)) (chilren : Byte → crez_node) (level : Nat) :
    node_stmt (.node sym chilren) level
      = .switch_name level
          (.seq (.labeled .case_zero (.ret (terminal_symbol chilren)))
            (child_arms chilren level child_indices (.labeled .default (.ret none)))) := by
  rw [node_stmt]; rfl

theorem child_arms_nil (chilren : Byte → crez_node) (level : Nat) (last : CStmt) :
    child_arms chilren level [] last = last := rfl

theorem child_arms_cons_null {chilren : Byte → crez_node} {i : Byte} (h : chilren i = .null)
    (level : Nat) (rest : List Byte) (last : CStmt) :
    child_arms chilren level (i :: rest) last = child_arms chilren level rest last := by
  simp only [child_arms, List.foldr_cons, h]

theorem child_arms_cons_node {chilren : Byte → crez_node} {i : Byte} (h : chilren i ≠ .null)
    (level : Nat) (rest : List Byte) (last : CStmt) :
    child_arms chilren level (i :: rest) last
      = .seq (.labeled (.case_char i) (node_stmt (chilren i) (level + 1)))
          (child_arms chilren level rest last) := by
  simp only [child_arms, List.foldr_cons]
  cases hc : chilren i with
  | null => exact absurd hc h
  | node s c => rfl

/-- A nested `switch` is passed over while control seeks a label. -/
theorem exec_node_stmt_seek_case (P : Platform) (name : List Byte) {t : crez_node}
    (ht : t ≠ .null) (level : Nat) (v : Int) :
    exec P name (node_stmt t level) (.seek_case v) = .seek_case v := by
  cases t with
  | null => exact absurd rfl ht
  | node s c => rw [node_stmt_eq]; simp [exec]

theorem exec_node_stmt_seek_default (P : Platform) (name : List Byte) {t : crez_node}
    (ht : t ≠ .null) (level : Nat) :
    exec P name (node_stmt t level) .seek_default = .seek_default := by
  cases t with
  | null => exact absurd rfl ht
  | node s c => rw [node_stmt_eq]; simp [exec]

theorem labels_of_node_stmt {t : crez_node} (ht : t ≠ .null) (level : Nat) :
    labels_of (node_stmt t level) = [] := by
  cases t with
  | null => exact absurd rfl ht
  | node s c => rw [node_stmt_eq]; rfl

/-- Seeking `default`, control passes over all the arms of the children. -/
theorem exec_child_arms_seek_default (P : Platform) (name : List Byte)
    (chilren : Byte → crez_node) (level : Nat) (last : CStmt) :
    ∀ indices : List Byte,
      exec P name (child_arms chilren level indices last) .seek_default
        = exec P name last .seek_default := by
  intro indices
  induction indices with
  | nil => rfl
  | cons i rest ih =>
    by_cases h : chilren i = .null
    · rw [child_arms_cons_null h, ih]
    · rw [child_arms_cons_node h]
      simp only [exec, reduceCtorEq, if_false]
      rw [exec_node_stmt_seek_default P name h, ih]

/-- Seeking a constant that no arm carries, control passes over all the arms of
the children. -/
theorem exec_child_arms_seek_miss (P : Platform) (name : List Byte)
    (chilren : Byte → crez_node) (level : Nat) (last : CStmt) (v : Int) :
    ∀ indices : List Byte,
      (∀ i ∈ indices, chilren i ≠ .null → label_value P (.case_char i) ≠ some v) →
      exec P name (child_arms chilren level indices last) (.seek_case v)
        = exec P name last (.seek_case v) := by
  intro indices
  induction indices with
  | nil => intro _; rfl
  | cons i rest ih =>
    intro hmiss
    have hrest := ih (fun j hj => hmiss j (by simp [hj]))
    by_cases h : chilren i = .null
    · rw [child_arms_cons_null h, hrest]
    · rw [child_arms_cons_node h]
      simp only [exec, if_neg (hmiss i (by simp) h)]
      rw [exec_node_stmt_seek_case P name h, hrest]

/-- Seeking the constant of the arm of slot `b`, control enters that arm. -/
theorem exec_child_arms_seek_hit (P : Platform) (name : List Byte)
    (chilren : Byte → crez_node) (level : Nat) (last : CStmt) {b : Byte}
    (hb : chilren b ≠ .null) (hq : quotable b) {result : Option (List Byte)}
    (hrun : exec P name (node_stmt (chilren b) (level + 1)) .run = .returned result) :
    ∀ indices : List Byte, b ∈ indices →
      exec P name (child_arms chilren level indices last) (.seek_case (char_value P b))
        = .returned result := by
  intro indices
  induction indices with
  | nil => intro h; simp at h
  | cons i rest ih =>
    intro hmem
    by_cases hib : i = b
    · subst hib
      rw [child_arms_cons_node hb]
      simp only [exec, label_value_case_char P hq, if_true, hrun, exec_returned]
    · have hrest := ih (by
        rcases List.mem_cons.mp hmem with h | h
        · exact absurd h.symm hib
        · exact h)
      by_cases h : chilren i = .null
      · rw [child_arms_cons_null h, hrest]
      · rw [child_arms_cons_node h]
        have hne : label_value P (.case_char i) ≠ some (char_value P b) := by
          simp only [label_value, char_constant_value]
          split
          · simp
          · intro e
            exact hib (char_value_injective P (Option.some.inj e))
        simp only [exec, if_neg hne]
        rw [exec_node_stmt_seek_case P name h, hrest]

/-- The labels of the arms of the children, as constants: no constant twice, and
each the value of the character of a populated slot. -/
theorem child_arms_labels (P : Platform) (chilren : Byte → crez_node) (level : Nat) :
    ∀ indices : List Byte, indices.Nodup →
      (∀ i ∈ indices, chilren i ≠ .null → quotable i) →
      ((labels_of (child_arms chilren level indices (.labeled .default (.ret none)))).map
          (label_value P)).Nodup
      ∧ (∀ x ∈ (labels_of (child_arms chilren level indices (.labeled .default (.ret none)))).map
            (label_value P),
          x = none ∨ ∃ i ∈ indices, chilren i ≠ .null ∧ x = some (char_value P i))
      ∧ (∀ i ∈ indices, chilren i ≠ .null →
          some (char_value P i)
            ∈ (labels_of (child_arms chilren level indices (.labeled .default (.ret none)))).map
                (label_value P))
      ∧ CLabel.default
          ∈ labels_of (child_arms chilren level indices (.labeled .default (.ret none))) := by
  intro indices
  induction indices with
  | nil =>
    intro _ _
    simp [child_arms_nil, labels_of, label_value]
  | cons i rest ih =>
    intro hnd hq
    obtain ⟨hi, hrest⟩ := List.nodup_cons.mp hnd
    obtain ⟨ih1, ih2, ih3, ih4⟩ := ih hrest (fun j hj => hq j (by simp [hj]))
    by_cases h : chilren i = .null
    · rw [child_arms_cons_null h]
      refine ⟨ih1, ?_, ?_, ih4⟩
      · intro x hx
        rcases ih2 x hx with hx | ⟨j, hj, hjn, hjx⟩
        · exact Or.inl hx
        · exact Or.inr ⟨j, by simp [hj], hjn, hjx⟩
      · intro j hj hjn
        rcases List.mem_cons.mp hj with rfl | hj
        · exact absurd h hjn
        · exact ih3 j hj hjn
    · rw [child_arms_cons_node h]
      simp only [labels_of, labels_of_node_stmt h, List.nil_append, List.cons_append,
        List.map_cons, label_value_case_char P (hq i (by simp) h)]
      refine ⟨?_, ?_, ?_, by simp [ih4]⟩
      · refine List.nodup_cons.mpr ⟨?_, ih1⟩
        intro hmem
        rcases ih2 _ hmem with hx | ⟨j, hj, _, hjx⟩
        · simp at hx
        · have := char_value_injective P (Option.some.inj hjx)
          subst this
          exact hi hj
      · intro x hx
        rcases List.mem_cons.mp hx with rfl | hx
        · exact Or.inr ⟨i, by simp, h, rfl⟩
        · rcases ih2 x hx with hx | ⟨j, hj, hjn, hjx⟩
          · exact Or.inl hx
          · exact Or.inr ⟨j, by simp [hj], hjn, hjx⟩
      · intro j hj hjn
        rcases List.mem_cons.mp hj with rfl | hj
        · simp
        · exact List.mem_cons_of_mem _ (ih3 j hj hjn)

/-- The statement of a node is well-formed C when all its labels are quotable. -/
theorem well_formed_node_stmt (P : Platform) :
    ∀ (t : crez_node) (level : Nat), quotable_labels t → well_formed P (node_stmt t level) = true := by
  intro t
  induction t with
  | null => intro level _; rfl
  | node sym chilren ih =>
    intro level hq
    simp only [quotable_labels] at hq
    rw [node_stmt_eq]
    have harms : ∀ indices : List Byte, (∀ i ∈ indices, i ≠ 0) →
        well_formed P (child_arms chilren level indices (.labeled .default (.ret none))) = true := by
      intro indices
      induction indices with
      | nil => intro _; rfl
      | cons i rest ihr =>
        intro hnz
        have hrest := ihr (fun j hj => hnz j (by simp [hj]))
        by_cases h : chilren i = .null
        · rw [child_arms_cons_null h]; exact hrest
        · rw [child_arms_cons_node h]
          obtain ⟨hqi, hqc⟩ := hq i (hnz i (by simp)) h
          have hok : (char_constant_value P i).isSome = true := by
            have := label_value_case_char P hqi
            simp only [label_value] at this
            rw [this]; rfl
          simp only [well_formed, label_ok, Bool.and_eq_true, hrest, and_true,
            ih i (level + 1) hqc, hok]
    have hnz : ∀ i ∈ child_indices, i ≠ 0 := fun i hi => (mem_child_indices i).mp hi
    obtain ⟨h1, h2, _, _⟩ := child_arms_labels P chilren level child_indices child_indices_nodup
      (fun i hi hn => (hq i (hnz i hi) hn).1)
    simp only [well_formed, label_ok, Bool.true_and, Bool.and_eq_true, harms child_indices hnz,
      true_and, decide_eq_true_eq, labels_of, List.nil_append, List.cons_append, List.map_cons,
      label_value]
    refine List.nodup_cons.mpr ⟨?_, h1⟩
    intro hmem
    rcases h2 _ hmem with hx | ⟨j, hj, _, hjx⟩
    · simp at hx
    · exact char_value_ne_zero P (hnz j hj) (Option.some.inj hjx).symm

/-- One `switch` of the emitted function, at a node whose labels are quotable,
reading the terminator: it returns what the terminal slot holds. -/
theorem exec_node_stmt_terminator (P : Platform) (name : List Byte) (sym : Option (List Byte))
    (chilren : Byte → crez_node) (level : Nat)
    (hname : name_at P name level = some 0) :
    exec P name (node_stmt (.node sym chilren) level) .run
      = .returned (terminal_symbol chilren) := by
  rw [node_stmt_eq]
  simp [exec, hname, labels_of, label_value, exec_returned]

/-- One `switch` of the emitted function, reading a byte whose slot is empty: it
returns null. -/
theorem exec_node_stmt_miss (P : Platform) (name : List Byte) (sym : Option (List Byte))
    (chilren : Byte → crez_node) (level : Nat)
    (hq : ∀ i : Byte, i ≠ 0 → chilren i ≠ .null → quotable i)
    {b : Byte} (hb : b ≠ 0) (hname : name_at P name level = some (char_value P b))
    (hnull : chilren b = .null) :
    exec P name (node_stmt (.node sym chilren) level) .run = .returned none := by
  have hnz : ∀ i ∈ child_indices, i ≠ 0 := fun i hi => (mem_child_indices i).mp hi
  obtain ⟨_, h2, _, h4⟩ := child_arms_labels P chilren level child_indices child_indices_nodup
    (fun i hi hn => hq i (hnz i hi) hn)
  have hv : char_value P b ≠ 0 := char_value_ne_zero P hb
  have hnot : ¬ (some (char_value P b)
      ∈ (labels_of (child_arms chilren level child_indices (.labeled .default (.ret none)))).map
          (label_value P)) := by
    intro hmem
    rcases h2 _ hmem with hx | ⟨j, _, hjn, hjx⟩
    · simp at hx
    · have := char_value_injective P (Option.some.inj hjx)
      subst this
      exact hjn hnull
  rw [node_stmt_eq]
  have hv0 : ¬ ((0 : Int) = char_value P b) := fun e => hv e.symm
  simp only [exec, hname, labels_of, List.nil_append, List.cons_append, List.map_cons,
    label_value, List.mem_cons, Option.some.injEq, hv, hv0, hnot, or_self, if_false, h4,
    or_true, if_true, reduceCtorEq]
  rw [exec_child_arms_seek_default]
  simp [exec]

/-- One `switch` of the emitted function, at a node whose labels are quotable,
reading a byte whose slot is populated: it does what the statement of that
child does. -/
theorem exec_node_stmt_hit (P : Platform) (name : List Byte) (sym : Option (List Byte))
    (chilren : Byte → crez_node) (level : Nat)
    (hq : ∀ i : Byte, i ≠ 0 → chilren i ≠ .null → quotable i)
    {b : Byte} (hb : b ≠ 0) (hname : name_at P name level = some (char_value P b))
    (hchild : chilren b ≠ .null) {result : Option (List Byte)}
    (hrun : exec P name (node_stmt (chilren b) (level + 1)) .run = .returned result) :
    exec P name (node_stmt (.node sym chilren) level) .run = .returned result := by
  have hnz : ∀ i ∈ child_indices, i ≠ 0 := fun i hi => (mem_child_indices i).mp hi
  obtain ⟨_, _, h3, _⟩ := child_arms_labels P chilren level child_indices child_indices_nodup
    (fun i hi hn => hq i (hnz i hi) hn)
  have hmem := h3 b ((mem_child_indices b).mpr hb) hchild
  have hv : char_value P b ≠ 0 := char_value_ne_zero P hb
  have hv0 : ¬ ((0 : Int) = char_value P b) := fun e => hv e.symm
  rw [node_stmt_eq]
  simp only [exec, hname, labels_of, List.nil_append, List.cons_append, List.map_cons,
    label_value, List.mem_cons, Option.some.injEq, hv, hv0, hmem, or_true, if_true, if_false]
  rw [exec_child_arms_seek_hit P name chilren level _ hchild (hq b hb hchild) hrun _
    ((mem_child_indices b).mpr hb)]

theorem symbol_of_slot_zero (chilren : Byte → crez_node) :
    symbol_of (chilren 0) = terminal_symbol chilren := by
  unfold terminal_symbol
  cases chilren 0 <;> rfl

/-- The emitted function, run from the `switch` of a node at depth `level`, on a
name whose bytes from `level` on are `rest`: it returns the symbol of the node
that the walk along `rest` and then slot 0 reaches, null if there is none. -/
theorem exec_node_stmt_walk (P : Platform) (name : List Byte) :
    ∀ (rest : List Byte) (t : crez_node) (level : Nat), t ≠ .null → quotable_labels t →
      (cstr name).drop level = rest → level ≤ strlen name →
      exec P name (node_stmt t level) .run = .returned (symbol_of (walk t (rest ++ [0]))) := by
  intro rest
  induction rest with
  | nil =>
    intro t level ht _ hdrop hle
    cases t with
    | null => exact absurd rfl ht
    | node sym chilren =>
      have hlen : level = strlen name := by
        have := List.drop_eq_nil_iff.mp hdrop
        unfold strlen at hle ⊢
        omega
      have hname : name_at P name level = some 0 := by
        unfold name_at
        rw [if_neg (by omega), if_pos hlen]
      rw [exec_node_stmt_terminator P name sym chilren level hname]
      simp [walk, symbol_of_slot_zero]
  | cons b rest ih =>
    intro t level ht hq hdrop hle
    cases t with
    | null => exact absurd rfl ht
    | node sym chilren =>
      have hlt : level < (cstr name).length := by
        by_contra hge
        rw [List.drop_eq_nil_iff.mpr (by omega)] at hdrop
        cases hdrop
      have hget : (cstr name).getD level 0 = b := by
        rw [List.getD_eq_getElem _ _ hlt]
        have := List.drop_eq_getElem_cons hlt
        rw [hdrop] at this
        exact (List.cons.inj this).1.symm
      have hdrop1 : (cstr name).drop (level + 1) = rest := by
        have := List.drop_eq_getElem_cons hlt
        rw [hdrop] at this
        exact (List.cons.inj this).2.symm
      have hb : b ≠ 0 := by
        apply cstr_zero_free name
        rw [← hget, List.getD_eq_getElem _ _ hlt]
        exact List.getElem_mem _
      have hname : name_at P name level = some (char_value P b) := by
        unfold name_at strlen
        rw [if_pos hlt, hget]
      simp only [quotable_labels] at hq
      have hq1 : ∀ i : Byte, i ≠ 0 → chilren i ≠ .null → quotable i := fun i h0 hn => (hq i h0 hn).1
      by_cases hchild : chilren b = .null
      · rw [exec_node_stmt_miss P name sym chilren level hq1 hb hname hchild]
        simp [walk, hchild, walk_null, symbol_of]
      · have hrec := ih (chilren b) (level + 1) hchild (hq b hb hchild).2 hdrop1
          (by unfold strlen; omega)
        rw [exec_node_stmt_hit P name sym chilren level hq1 hb hname hchild hrec]
        simp [walk]

theorem quotable_labels_node_create (s : Option (List Byte)) : quotable_labels (node_create s) := by
  simp [node_create, quotable_labels]

/-- One round of the loop, read backwards from its result. -/
theorem add_symbol_loop_cons {P : Platform} {sym : Option (List Byte)} {ch : Byte → crez_node}
    {key : Byte} {rest symbol : List Byte} {t1 : crez_node} {r : Int}
    (h : add_symbol_loop P (.node sym ch) (key :: rest) symbol = some (t1, r)) :
    index_in_bounds P key ∧ ∃ child c1 : crez_node,
      ((ch key = .null ∧ child = node_create none) ∨ (ch key ≠ .null ∧ child = ch key))
      ∧ add_symbol_loop P child rest symbol = some (c1, r)
      ∧ t1 = .node sym (Function.update ch key c1) := by
  simp only [add_symbol_loop] at h
  cases hk : array_slot (char_value P key) with
  | none => rw [hk] at h; simp at h
  | some k =>
    obtain ⟨rfl, hkb⟩ := array_slot_some hk
    rw [hk] at h
    simp only at h
    refine ⟨hkb, ?_⟩
    cases hc : ch k with
    | null =>
      rw [hc] at h
      simp only at h
      cases hrec : add_symbol_loop P (node_create none) rest symbol with
      | none => rw [hrec] at h; simp at h
      | some res =>
        obtain ⟨c1, r1⟩ := res
        rw [hrec] at h
        simp only [Option.some.injEq, Prod.mk.injEq] at h
        obtain ⟨rfl, rfl⟩ := h
        exact ⟨node_create none, c1, Or.inl ⟨rfl, rfl⟩, hrec, rfl⟩
    | node s c =>
      rw [hc] at h
      simp only at h
      cases hrec : add_symbol_loop P (.node s c) rest symbol with
      | none => rw [hrec] at h; simp at h
      | some res =>
        obtain ⟨c1, r1⟩ := res
        rw [hrec] at h
        simp only [Option.some.injEq, Prod.mk.injEq] at h
        obtain ⟨rfl, rfl⟩ := h
        exact ⟨.node s c, c1, Or.inr ⟨by simp, rfl⟩, hrec, rfl⟩

/-- A call of the loop with a zero-free name of quotable bytes keeps all labels
quotable. -/
theorem add_symbol_loop_quotable (P : Platform) (symbol : List Byte) :
    ∀ (name : List Byte) (t t1 : crez_node) (r : Int),
      add_symbol_loop P t name symbol = some (t1, r) → zero_free name →
      (∀ b ∈ name, quotable b) → quotable_labels t → quotable_labels t1 := by
  intro name
  induction name with
  | nil =>
    intro t t1 r h _ _ hq
    cases t with
    | null => simp [add_symbol_loop] at h
    | node sym ch =>
      simp only [add_symbol_loop] at h
      cases hc : ch 0 with
      | null =>
        rw [hc] at h
        simp only [Option.some.injEq, Prod.mk.injEq] at h
        obtain ⟨rfl, rfl⟩ := h
        simp only [quotable_labels] at hq ⊢
        intro i hi hn
        rw [Function.update_noteq hi] at hn ⊢
        exact hq i hi hn
      | node s c =>
        rw [hc] at h
        simp only [Option.some.injEq, Prod.mk.injEq] at h
        obtain ⟨rfl, rfl⟩ := h
        exact hq
  | cons key rest ih =>
    intro t t1 r h hz hname hq
    have hkey : key ≠ 0 := hz key (by simp)
    cases t with
    | null => simp [add_symbol_loop] at h
    | node sym ch =>
      obtain ⟨_, child, c1, hchild, hrec, rfl⟩ := add_symbol_loop_cons h
      simp only [quotable_labels] at hq
      have hqc : quotable_labels child := by
        rcases hchild with ⟨_, rfl⟩ | ⟨hn, rfl⟩
        · exact quotable_labels_node_create none
        · exact (hq key hkey hn).2
      have hq1 := ih child c1 r hrec (fun b hb => hz b (by simp [hb]))
        (fun b hb => hname b (by simp [hb])) hqc
      simp only [quotable_labels]
      intro i hi hn
      by_cases hik : i = key
      · subst hik
        rw [Function.update_same]
        exact ⟨hname i (by simp), hq1⟩
      · rw [Function.update_noteq hik] at hn ⊢
        exact hq i hi hn

/-- A run of calls with names of quotable bytes keeps all labels quotable. -/
theorem add_all_quotable (P : Platform) :
    ∀ (calls : List (List Byte × List Byte)) (t t1 : crez_node), add_all P t calls = some t1 →
      (∀ c ∈ calls, ∀ b ∈ cstr c.1, quotable b) → quotable_labels t → quotable_labels t1 := by
  intro calls
  induction calls with
  | nil =>
    intro t t1 h _ hq
    simp only [add_all, Option.some.injEq] at h
    rw [← h]; exact hq
  | cons c rest ih =>
    intro t t1 h hname hq
    obtain ⟨n, s⟩ := c
    simp only [add_all] at h
    cases hc : node_add_symbol P t n s with
    | none => rw [hc] at h; simp at h
    | some res =>
      obtain ⟨t2, r⟩ := res
      rw [hc] at h
      exact ih t2 t1 h (fun c hc => hname c (by simp [hc]))
        (add_symbol_loop_quotable P s (cstr n) t t2 r hc (cstr_zero_free n)
          (hname (n, s) (by simp)) hq)

/-- Total coverage of the lookup, for names that can be written as labels: in a
trie built from an empty root by calls whose names hold no quote, backslash or
new-line, the emitted function is well-formed C and, called on any string,
returns the address of the symbol that the first call carrying that string
passed, and null when no call carried it. -/
theorem lookup_total_coverage (P : Platform) (calls : List (List Byte × List Byte))
    (t : crez_node) (h : build P calls = some t)
    (hq : ∀ c ∈ calls, ∀ b ∈ cstr c.1, quotable b) (query : List Byte) :
    well_formed P (node_stmt t 0) = true
    ∧ c_rez_locate P t query = some ((first_registration calls (cstr query)).map cstr) := by
  have hlabels : quotable_labels t :=
    add_all_quotable P calls _ t h hq (quotable_labels_node_create none)
  have hwf := well_formed_node_stmt P t 0 hlabels
  refine ⟨hwf, ?_⟩
  unfold c_rez_locate call_function
  rw [if_pos hwf, exec_node_stmt_walk P query (cstr query) t 0 (build_ne_null h) hlabels rfl
    (Nat.zero_le _)]
  simp only
  rw [← terminal_eq, build_terminal h (cstr_zero_free query)]
  cases first_registration calls (cstr query) <;> rfl

/-! ## Lemmas: the text of `write_node` is the concrete syntax of `node_stmt` -/

theorem write_node_eq (sym : Option (List Byte)) (chilren : Byte → crez_node) (level : Nat) :
    write_node (.node sym chilren) level
      = write_space (level * 2 + 2) ++ (lit "switch (name[" ++ decimal level ++ lit "]) \x7b\n")
        ++ write_space (level * 2 + 2)
        ++ (lit "  case 0: return" ++ return_operand (terminal_symbol chilren) ++ lit ";\n")
        ++ (child_indices.flatMap fun i =>
              match chilren i with
              | .null => []
              | .node _ _ =>
                write_space (level * 2 + 2) ++ (lit "  case \x27" ++ [i] ++ lit "\x27:\n")
                ++ write_node (chilren i) (level + 1))
        ++ write_space (level * 2 + 2) ++ lit "  default: return (void *) 0;\n"
        ++ write_space (level * 2 + 2) ++ lit "\x7d\n" := by
  rw [write_node]

theorem render_seq (s1 s2 : CStmt) (indent : Nat) :
    render (.seq s1 s2) indent = render s1 indent ++ render s2 indent := by
  rw [render]

theorem render_labeled_switch (l : CLabel) {t : crez_node} (ht : t ≠ .null) (level indent : Nat) :
    render (.labeled l (node_stmt t level)) indent
      = write_space indent ++ (lit "  " ++ label_text l
          ++ (lit "\n" ++ render (node_stmt t level) (indent + 2))) := by
  cases t with
  | null => exact absurd rfl ht
  | node s c => rw [node_stmt_eq]; simp only [render]

/-- The arms of the children, rendered: the text the `for` loop of `write_node`
writes, given that the statements of the children render to their texts. -/
theorem render_child_arms (chilren : Byte → crez_node) (level : Nat) (last : CStmt)
    (hchild : ∀ i : Byte, chilren i ≠ .null →
      render (node_stmt (chilren i) (level + 1)) ((level + 1) * 2 + 2)
        = write_node (chilren i) (level + 1)) :
    ∀ indices : List Byte,
      render (child_arms chilren level indices last) (level * 2 + 2)
        = (indices.flatMap fun i =>
            match chilren i with
            | .null => []
            | .node _ _ =>
              write_space (level * 2 + 2) ++ (lit "  case \x27" ++ [i] ++ lit "\x27:\n")
              ++ write_node (chilren i) (level + 1))
          ++ render last (level * 2 + 2) := by
  intro indices
  induction indices with
  | nil => rfl
  | cons i rest ih =>
    by_cases h : chilren i = .null
    · rw [child_arms_cons_null h, ih]
      simp only [List.flatMap_cons, h, List.nil_append]
    · rw [child_arms_cons_node h, render_seq, render_labeled_switch _ h, ih]
      have hi := hchild i h
      rw [show level * 2 + 2 + 2 = (level + 1) * 2 + 2 by omega, hi]
      have e1 : lit "  case \x27" = lit "  " ++ lit "case \x27" := rfl
      have e2 : lit "\x27:\n" = lit "\x27:" ++ lit "\n" := rfl
      cases hc : chilren i with
      | null => exact absurd hc h
      | node s c =>
        simp only [List.flatMap_cons, hc, label_text, e1, e2, List.append_assoc]

/-- The text `write_node` writes for a node is the concrete syntax of the
statement `node_stmt` builds for it. -/
theorem render_node_stmt :
    ∀ (t : crez_node) (level : Nat), t ≠ .null →
      render (node_stmt t level) (level * 2 + 2) = write_node t level := by
  intro t
  induction t with
  | null => intro level h; exact absurd rfl h
  | node sym chilren ih =>
    intro level _
    rw [node_stmt_eq, write_node_eq, render, render_seq,
      render_child_arms chilren level _ (fun i hi => ih i (level + 1) hi)]
    have e1 : lit "  case 0: return" = lit "  " ++ lit "case 0:" ++ lit " return" := rfl
    have e2 : lit "  default: return (void *) 0;\n"
        = lit "  " ++ lit "default:" ++ (lit " return" ++ (lit " " ++ lit "(void *) 0") ++ lit ";\n") :=
      rfl
    simp only [render, label_text, return_operand, e1, e2, List.append_assoc]

/-! # The claims, continued -/

theorem isalnum_char_value (P : Platform) (b : Byte) :
    isalnum (char_value P b) = true
      ↔ (48 ≤ b.val ∧ b.val ≤ 57) ∨ (65 ≤ b.val ∧ b.val ≤ 90) ∨ (97 ≤ b.val ∧ b.val ≤ 122) := by
  have hb := b.isLt
  unfold isalnum char_value
  simp only [decide_eq_true_eq]
  split <;> omega

/-- C11, as stated, fails: with the prefix "x-y" and the input "a",
`make_identifier` returns "x_y_a": the hyphen of the prefix is replaced too, so
the result is not the prefix followed by the underscore and the sanitized
input, which would be "x-y_a". -/
theorem make_identifier_changes_prefix :
    cstr (make_identifier signed_char_abi (lit "a") (lit "x-y")) = lit "x_y_a"
    ∧ cstr (make_identifier unsigned_char_abi (lit "a") (lit "x-y")) = lit "x_y_a"
    ∧ lit "x_y_a" ≠ lit "x-y" ++ lit "_" ++ (lit "a").map (sanitized signed_char_abi) := by
  refine ⟨by decide, by decide, by decide⟩

/-- C11, amended: the string `make_identifier` returns is the prefix with each
byte that is not an ASCII digit or letter replaced by the underscore, followed
by an underscore, followed by the input with each such byte replaced by the
underscore. -/
theorem make_identifier_sanitizes_both (P : Platform) (input pfx : List Byte) :
    cstr (make_identifier P input pfx)
      = (cstr pfx).map (sanitized P) ++ lit "_" ++ (cstr input).map (sanitized P)
    ∧ ∀ b : Byte, sanitized P b
        = if (48 ≤ b.val ∧ b.val ≤ 57) ∨ (65 ≤ b.val ∧ b.val ≤ 90) ∨ (97 ≤ b.val ∧ b.val ≤ 122)
          then b else 95 := by
  refine ⟨make_identifier_cstr P input pfx, ?_⟩
  intro b
  unfold sanitized
  by_cases h : isalnum (char_value P b) = true
  · rw [if_pos h, if_pos ((isalnum_char_value P b).mp h)]
  · rw [if_neg h, if_neg (fun h1 => h ((isalnum_char_value P b).mpr h1))]

/-- C15, the defect: for the byte of the backslash (and of the quote and of the
new-line) the label `write_node` writes is not a character constant of C, so
the function emitted for the trie that holds the name made of one backslash
is not well-formed; and where plain `char` is signed, the constant written for
the byte 200 has the value -56, not 200. -/
theorem backslash_label_not_well_formed :
    label_text (.case_char 92) = lit "case \x27\\\x27:"
    ∧ char_constant_value unsigned_char_abi 92 = none
    ∧ char_constant_value unsigned_char_abi 39 = none
    ∧ char_constant_value unsigned_char_abi 10 = none
    ∧ (build unsigned_char_abi [([92], lit "R")]).map (fun t => write_node t 0)
      = some (lit "  switch (name[0]) \x7b\n    case 0: return (void *) 0;\n    case \x27\\\x27:\n    switch (name[1]) \x7b\n      case 0: return &R;\n      default: return (void *) 0;\n    \x7d\n    default: return (void *) 0;\n  \x7d\n")
    ∧ (build unsigned_char_abi [([92], lit "R")]).map
        (fun t => well_formed unsigned_char_abi (node_stmt t 0)) = some false
    ∧ char_constant_value signed_char_abi 200 = some (-56) := by
  refine ⟨by decide, by decide, by decide, by decide, by decide, by decide, by decide⟩

/-- C18, the defect: where plain `char` is signed, the first byte 0xC3 of the
name "é" (UTF-8: 0xC3 0xA9) gives `key = -61`, so `node_add_symbol` indexes
`chilren[-61]`: the index is not in 0..255 and is not the unsigned value 195 of
the byte, and the call has no defined result. Where plain `char` is unsigned
the index is 195. -/
theorem signed_key_is_not_the_byte_value :
    char_value signed_char_abi 195 = -61
    ∧ array_slot (char_value signed_char_abi 195) = none
    ∧ (node_add_symbol signed_char_abi (node_create none) [195, 169] (lit "R")).isSome = false
    ∧ array_slot (char_value unsigned_char_abi 195) = some 195
    ∧ (node_add_symbol unsigned_char_abi (node_create none) [195, 169] (lit "R")).isSome = true := by
  refine ⟨by decide, by decide, by decide, by decide, by decide⟩

/-- C19, the defect: every round of the loop of `node_destroy` tests and destroys
`chilren[0]`, never `chilren[i]`. For the trie that holds "a", `node_destroy`
on the root frees the root alone: the node of `a` and its terminal node are
reachable and are not freed. For the trie that holds the empty name, where
slot 0 of the root is populated, the terminal node is freed 256 times. -/
theorem node_destroy_frees_slot_zero_only :
    build unsigned_char_abi [(lit "a", lit "R")] = some (one_byte_trie 97 (lit "R"))
    ∧ node_destroy (one_byte_trie 97 (lit "R")) [] = [[]]
    ∧ is_null (walk (one_byte_trie 97 (lit "R")) [97]) = false
    ∧ is_null (walk (one_byte_trie 97 (lit "R")) [97, 0]) = false
    ∧ build unsigned_char_abi [([], lit "R")]
        = some (.node none (single_child 0 (node_create (some (lit "R")))))
    ∧ node_destroy (.node none (single_child 0 (node_create (some (lit "R"))))) []
        = List.replicate 256 [0] ++ [[]] := by
  refine ⟨rfl, by decide, by decide, by decide, rfl, by decide⟩

theorem is_null_eq_false {t : crez_node} : is_null t = false ↔ t ≠ .null := by
  cases t <;> simp [is_null]

theorem mem_populated {chilren : Byte → crez_node} {indices : List Byte} {i : Byte} :
    i ∈ populated chilren indices ↔ i ∈ indices ∧ chilren i ≠ .null := by
  unfold populated
  rw [List.mem_filter]
  cases h : chilren i <;> simp [is_null]

/-- The labels of the arms of the children: one `case` label for each populated
slot, in the order of the loop, then the labels of the last statement. -/
theorem labels_of_child_arms (chilren : Byte → crez_node) (level : Nat) (last : CStmt) :
    ∀ indices : List Byte,
      labels_of (child_arms chilren level indices last)
        = (populated chilren indices).map CLabel.case_char ++ labels_of last := by
  intro indices
  induction indices with
  | nil => rfl
  | cons i rest ih =>
    by_cases h : chilren i = .null
    · rw [child_arms_cons_null h, ih]
      simp [populated, h, is_null]
    · rw [child_arms_cons_node h]
      simp only [labels_of, labels_of_node_stmt h, List.nil_append, List.cons_append, ih]
      have : is_null (chilren i) = false := is_null_eq_false.mpr h
      simp [populated, this]

theorem child_indices_ascending : child_indices.Pairwise (· < ·) := by
  unfold child_indices
  exact (List.pairwise_lt_finRange 256).sublist (List.tail_sublist _)

/-- C14: the `switch` that `write_node` writes for a node at depth `level`
dispatches on `name[level]`; its labels are, in this order, `case 0`, one
`case` label for each populated slot other than slot 0, in ascending order of
the byte, and `default`; no label occurs twice, so no byte value is matched by
two arms. For a node whose populated slots are 65 and 66 the labels are
`case 0`, `case 'A'`, `case 'B'` and `default`. -/
theorem byte_range_completeness (sym : Option (List Byte)) (chilren : Byte → crez_node)
    (level : Nat) :
    (∃ body : CStmt,
      node_stmt (.node sym chilren) level = .switch_name level body
      ∧ render (.switch_name level body) (level * 2 + 2) = write_node (.node sym chilren) level
      ∧ labels_of body
          = CLabel.case_zero :: (populated chilren child_indices).map CLabel.case_char
            ++ [CLabel.default]
      ∧ (labels_of body).Nodup)
    ∧ (∀ i : Byte, i ∈ populated chilren child_indices ↔ i ≠ 0 ∧ chilren i ≠ .null)
    ∧ (populated chilren child_indices).Pairwise (· < ·)
    ∧ (∀ symbol : Option (List Byte),
        labels_of (.seq (.labeled .case_zero (.ret symbol))
            (child_arms (Function.update (single_child 65 (node_create none)) 66
              (node_create none)) 0 child_indices (.labeled .default (.ret none))))
          = [.case_zero, .case_char 65, .case_char 66, .default]) := by
  have hmem : ∀ i : Byte, i ∈ populated chilren child_indices ↔ i ≠ 0 ∧ chilren i ≠ .null := by
    intro i
    rw [mem_populated, mem_child_indices]
  have hasc : (populated chilren child_indices).Pairwise (· < ·) :=
    child_indices_ascending.sublist (List.filter_sublist _)
  refine ⟨⟨_, node_stmt_eq sym chilren level, ?_, ?_, ?_⟩, hmem, hasc, ?_⟩
  · rw [← node_stmt_eq]
    exact render_node_stmt (.node sym chilren) level (by simp)
  · simp only [labels_of, List.nil_append, List.cons_append, labels_of_child_arms,
      List.singleton_append]
  · simp only [labels_of, List.nil_append, List.cons_append, labels_of_child_arms,
      List.singleton_append]
    refine List.nodup_cons.mpr ⟨by simp, ?_⟩
    refine List.Nodup.append ?_ (by simp) ?_
    · refine List.Nodup.map (fun a b h => by cases h; rfl) ?_
      exact (hasc.imp (fun h => ne_of_lt h))
    · intro l h1 h2
      simp only [List.mem_singleton] at h2
      subst h2
      simp at h1
  · intro symbol
    simp only [labels_of, List.nil_append, List.cons_append, labels_of_child_arms,
      List.singleton_append]
    rfl

theorem all_arms_return_node_stmt :
    ∀ (t : crez_node) (level : Nat), all_arms_return (node_stmt t level) = true := by
  intro t
  induction t with
  | null => intro level; rfl
  | node sym chilren ih =>
    intro level
    rw [node_stmt_eq]
    have harms : ∀ indices : List Byte,
        all_arms_return (child_arms chilren level indices (.labeled .default (.ret none)))
          = true := by
      intro indices
      induction indices with
      | nil => rfl
      | cons i rest ihr =>
        by_cases h : chilren i = .null
        · rw [child_arms_cons_null h]; exact ihr
        · rw [child_arms_cons_node h]
          simp only [all_arms_return, ih i (level + 1), ihr, Bool.and_self]
    simp only [all_arms_return, harms child_indices, Bool.and_self, Bool.true_and,
      decide_eq_true_eq, labels_of, List.nil_append, List.cons_append, labels_of_child_arms,
      List.singleton_append]
    simp

/-- Seeking the constant of a populated slot among the arms of the children,
control enters an arm and ends in a `return`, given that the statements of the
children that carry the constant do. -/
theorem exec_child_arms_seek_returns (P : Platform) (name : List Byte)
    (chilren : Byte → crez_node) (level : Nat) (last : CStmt) (v : Int)
    (hchild : ∀ i : Byte, chilren i ≠ .null → label_value P (.case_char i) = some v →
      ∃ r, exec P name (node_stmt (chilren i) (level + 1)) .run = .returned r) :
    ∀ indices : List Byte,
      (∃ i ∈ indices, chilren i ≠ .null ∧ label_value P (.case_char i) = some v) →
      ∃ r, exec P name (child_arms chilren level indices last) (.seek_case v) = .returned r := by
  intro indices
  induction indices with
  | nil => rintro ⟨i, hi, _⟩; simp at hi
  | cons i rest ih =>
    rintro ⟨j, hj, hjn, hjv⟩
    by_cases h : chilren i = .null
    · rw [child_arms_cons_null h]
      refine ih ⟨j, ?_, hjn, hjv⟩
      rcases List.mem_cons.mp hj with rfl | hj
      · exact absurd h hjn
      · exact hj
    · rw [child_arms_cons_node h]
      by_cases hv : label_value P (.case_char i) = some v
      · obtain ⟨r, hr⟩ := hchild i h hv
        exact ⟨r, by simp only [exec, hv, if_true, hr, exec_returned]⟩
      · simp only [exec, if_neg hv]
        rw [exec_node_stmt_seek_case P name h]
        refine ih ⟨j, ?_, hjn, hjv⟩
        rcases List.mem_cons.mp hj with rfl | hj
        · exact absurd hjv hv
        · exact hj

/-- A `switch` whose controlling value is the constant of one of its labels
jumps to that label. -/
theorem exec_switch_to_case (P : Platform) (name : List Byte) (level : Nat) (body : CStmt)
    {v : Int} (hv : name_at P name level = some v)
    (hmem : some v ∈ (labels_of body).map (label_value P)) {r : Option (List Byte)}
    (hret : exec P name body (.seek_case v) = .returned r) :
    exec P name (.switch_name level body) .run = .returned r := by
  simp only [exec, hv, if_pos hmem, hret]

/-- A `switch` whose controlling value is the constant of none of its labels
jumps to `default`. -/
theorem exec_switch_to_default (P : Platform) (name : List Byte) (level : Nat) (body : CStmt)
    {v : Int} (hv : name_at P name level = some v)
    (hmem : some v ∉ (labels_of body).map (label_value P))
    (hdef : CLabel.default ∈ labels_of body) {r : Option (List Byte)}
    (hret : exec P name body .seek_default = .returned r) :
    exec P name (.switch_name level body) .run = .returned r := by
  simp only [exec, hv, if_neg hmem, if_pos hdef, hret]

theorem labels_of_node_body (chilren : Byte → crez_node) (level : Nat)
    (symbol : Option (List Byte)) :
    labels_of (.seq (.labeled .case_zero (.ret symbol))
        (child_arms chilren level child_indices (.labeled .default (.ret none))))
      = CLabel.case_zero :: ((populated chilren child_indices).map CLabel.case_char
          ++ [CLabel.default]) := by
  simp only [labels_of, List.nil_append, List.cons_append, labels_of_child_arms,
    List.singleton_append]

/-- Executed from its start at a depth within the name, the `switch` of a node
ends in a `return`. -/
theorem exec_node_stmt_returns (P : Platform) (name : List Byte) :
    ∀ (t : crez_node) (level : Nat), t ≠ .null → level ≤ strlen name →
      ∃ r, exec P name (node_stmt t level) .run = .returned r := by
  intro t
  induction t with
  | null => intro level h; exact absurd rfl h
  | node sym chilren ih =>
    intro level _ hle
    obtain ⟨v, hv, hlt⟩ : ∃ v, name_at P name level = some v ∧ (v ≠ 0 → level < strlen name) := by
      unfold name_at
      by_cases h : level < strlen name
      · exact ⟨_, if_pos h, fun _ => h⟩
      · exact ⟨0, by rw [if_neg h, if_pos (by omega)], fun h0 => absurd rfl h0⟩
    rw [node_stmt_eq]
    have hlabels := labels_of_node_body chilren level (terminal_symbol chilren)
    have hdef : CLabel.default ∈ labels_of (.seq (.labeled .case_zero
        (.ret (terminal_symbol chilren)))
        (child_arms chilren level child_indices (.labeled .default (.ret none)))) := by
      rw [hlabels]; simp
    by_cases hv0 : v = 0
    · subst hv0
      refine ⟨terminal_symbol chilren, ?_⟩
      refine exec_switch_to_case P name level _ hv (by rw [hlabels]; simp [label_value]) ?_
      simp only [exec, label_value, if_true, exec_returned]
    · by_cases hmem : some v ∈ ((populated chilren child_indices).map CLabel.case_char).map
          (label_value P)
      · obtain ⟨l, hl, hlv⟩ := List.mem_map.mp hmem
        obtain ⟨i, hi, rfl⟩ := List.mem_map.mp hl
        obtain ⟨hic, hin⟩ := mem_populated.mp hi
        obtain ⟨r, hr⟩ := exec_child_arms_seek_returns P name chilren level
          (.labeled .default (.ret none)) v
          (fun j hj _ => ih j (level + 1) hj (by have := hlt hv0; omega))
          child_indices ⟨i, hic, hin, hlv⟩
        refine ⟨r, ?_⟩
        refine exec_switch_to_case P name level _ hv (by
          rw [hlabels, List.map_cons, List.map_append]
          exact List.mem_cons_of_mem _ (List.mem_append_left _ hmem)) ?_
        have hz : ¬ (label_value P .case_zero = some v) := by
          simp only [label_value, Option.some.injEq]
          exact fun e => hv0 e.symm
        simp only [exec, if_neg hz, hr]
      · refine ⟨none, ?_⟩
        refine exec_switch_to_default P name level _ hv (by
          rw [hlabels, List.map_cons, List.map_append]
          intro h
          rcases List.mem_cons.mp h with h | h
          · simp only [label_value, Option.some.injEq] at h
            exact hv0 h
          · rcases List.mem_append.mp h with h | h
            · exact hmem h
            · simp [label_value] at h) hdef ?_
        simp only [exec, reduceCtorEq, if_false]
        rw [exec_child_arms_seek_default]
        simp only [exec, if_true]

/-- C16: in the function emitted for any trie, every arm returns: each `switch`
has a `default` and each labelled statement is a `return` or a nested `switch`
of the same kind, so no arm runs on into the next; and called on any argument
string, control leaves the function by a `return`, never by the end of a
`switch` or of the function. -/
theorem every_path_returns (P : Platform) (sym : Option (List Byte))
    (chilren : Byte → crez_node) (name : List Byte) :
    (∀ level : Nat, all_arms_return (node_stmt (.node sym chilren) level) = true)
    ∧ (∃ r, exec P name (node_stmt (.node sym chilren) 0) .run = .returned r)
    ∧ (∀ i : Byte, chilren i ≠ .null → ∀ level : Nat, level ≤ strlen name →
        ∃ r, exec P name (node_stmt (chilren i) level) .run = .returned r) :=
  ⟨fun level => all_arms_return_node_stmt _ level,
    exec_node_stmt_returns P name _ 0 (by simp) (Nat.zero_le _),
    fun i hi level hle => exec_node_stmt_returns P name _ level hi hle⟩

theorem inner_shape_node_create : inner_shape (node_create none) := by
  simp [node_create, inner_shape, terminal_shape]

theorem terminal_shape_node_create (symbol : List Byte) :
    terminal_shape (node_create (some symbol)) := by
  simp [node_create, terminal_shape]

/-- A call of the loop with a zero-free name keeps the shape of the trie. -/
theorem add_symbol_loop_shape (P : Platform) (symbol : List Byte) :
    ∀ (name : List Byte) (t t1 : crez_node) (r : Int),
      add_symbol_loop P t name symbol = some (t1, r) → zero_free name →
      inner_shape t → inner_shape t1 := by
  intro name
  induction name with
  | nil =>
    intro t t1 r h _ hs
    cases t with
    | null => simp [add_symbol_loop] at h
    | node sym ch =>
      simp only [add_symbol_loop] at h
      cases hc : ch 0 with
      | null =>
        rw [hc] at h
        simp only [Option.some.injEq, Prod.mk.injEq] at h
        obtain ⟨rfl, rfl⟩ := h
        simp only [inner_shape] at hs ⊢
        refine ⟨hs.1, ?_, ?_⟩
        · rw [Function.update_same]; exact terminal_shape_node_create symbol
        · intro i hi
          rw [Function.update_noteq hi]
          exact hs.2.2 i hi
      | node s c =>
        rw [hc] at h
        simp only [Option.some.injEq, Prod.mk.injEq] at h
        obtain ⟨rfl, rfl⟩ := h
        exact hs
  | cons key rest ih =>
    intro t t1 r h hz hs
    have hkey : key ≠ 0 := hz key (by simp)
    cases t with
    | null => simp [add_symbol_loop] at h
    | node sym ch =>
      obtain ⟨_, child, c1, hchild, hrec, rfl⟩ := add_symbol_loop_cons h
      simp only [inner_shape] at hs
      have hsc : inner_shape child := by
        rcases hchild with ⟨_, rfl⟩ | ⟨_, rfl⟩
        · exact inner_shape_node_create
        · exact hs.2.2 key hkey
      have hs1 := ih child c1 r hrec (fun b hb => hz b (by simp [hb])) hsc
      simp only [inner_shape]
      refine ⟨hs.1, ?_, ?_⟩
      · rw [Function.update_noteq (Ne.symm hkey)]; exact hs.2.1
      · intro i hi
        by_cases hik : i = key
        · subst hik
          rw [Function.update_same]; exact hs1
        · rw [Function.update_noteq hik]; exact hs.2.2 i hi

/-- A run of calls keeps the shape of the trie. -/
theorem add_all_shape (P : Platform) :
    ∀ (calls : List (List Byte × List Byte)) (t t1 : crez_node), add_all P t calls = some t1 →
      inner_shape t → inner_shape t1 := by
  intro calls
  induction calls with
  | nil =>
    intro t t1 h hs
    simp only [add_all, Option.some.injEq] at h
    rw [← h]; exact hs
  | cons c rest ih =>
    intro t t1 h hs
    obtain ⟨n, s⟩ := c
    simp only [add_all] at h
    cases hc : node_add_symbol P t n s with
    | none => rw [hc] at h; simp at h
    | some res =>
      obtain ⟨t2, r⟩ := res
      rw [hc] at h
      exact ih t2 t1 h (add_symbol_loop_shape P s (cstr n) t t2 r hc (cstr_zero_free n) hs)

theorem terminal_shape_walk {t : crez_node} (hs : terminal_shape t) {p : List Byte}
    (hp : p ≠ []) : walk t p = .null := by
  cases p with
  | nil => exact absurd rfl hp
  | cons b rest =>
    cases t with
    | null => rfl
    | node sym ch =>
      simp only [terminal_shape] at hs
      simp [walk, hs.2 b, walk_null]

/-- The nodes of a trie of inner shape, by their paths from the root: a path
without a zero byte leads to a node of inner shape, a path that ends in its
only zero byte to a node of terminal shape, and no other path leads to a node. -/
theorem inner_shape_walk :
    ∀ (p : List Byte) (t : crez_node), inner_shape t → walk t p ≠ .null →
      (zero_free p ∧ inner_shape (walk t p) ∧ symbol_of (walk t p) = none)
      ∨ (∃ q, p = q ++ [0] ∧ zero_free q ∧ terminal_shape (walk t p)
          ∧ symbol_of (walk t p) ≠ none) := by
  intro p
  induction p with
  | nil =>
    intro t hs hn
    left
    refine ⟨by simp [zero_free], by simpa [walk] using hs, ?_⟩
    cases t with
    | null => rfl
    | node sym ch => simp only [inner_shape] at hs; simpa [walk, symbol_of] using hs.1
  | cons b rest ih =>
    intro t hs hn
    cases t with
    | null => simp [walk] at hn
    | node sym ch =>
      simp only [inner_shape] at hs
      simp only [walk] at hn ⊢
      by_cases hb : b = 0
      · subst hb
        right
        have hrest : rest = [] := by
          by_contra hne
          exact hn (terminal_shape_walk hs.2.1 hne)
        subst hrest
        refine ⟨[], rfl, by simp [zero_free], by simpa [walk] using hs.2.1, ?_⟩
        simp only [walk] at hn ⊢
        cases hc : ch 0 with
        | null => exact absurd hc hn
        | node s c =>
          have := hs.2.1
          rw [hc] at this
          simp only [terminal_shape] at this
          simpa [symbol_of] using this.1
      · rcases ih (ch b) (hs.2.2 b hb) hn with ⟨hz, h1, h2⟩ | ⟨q, rfl, hz, h1, h2⟩
        · left
          refine ⟨?_, h1, h2⟩
          intro x hx
          rcases List.mem_cons.mp hx with rfl | hx
          · exact hb
          · exact hz x hx
        · right
          refine ⟨b :: q, rfl, ?_, h1, h2⟩
          intro x hx
          rcases List.mem_cons.mp hx with rfl | hx
          · exact hb
          · exact hz x hx

/-- C17: in a trie built from `node_create(NULL)` by `node_add_symbol` calls, the
root has no symbol; a node carries a symbol exactly if it is the slot-0 child
of its parent, that is, if its path from the root ends in 0; and a slot-0
child has no children. -/
theorem trie_shape_invariant (P : Platform) (calls : List (List Byte × List Byte))
    (t : crez_node) (h : build P calls = some t) :
    symbol_of t = none
    ∧ ∀ p : List Byte, walk t p ≠ .null →
        ((symbol_of (walk t p) ≠ none ↔ ∃ q, p = q ++ [0])
        ∧ ((∃ q, p = q ++ [0]) → ∀ i : Byte, walk t (p ++ [i]) = .null)) := by
  have hs : inner_shape t := add_all_shape P calls _ t h inner_shape_node_create
  refine ⟨?_, ?_⟩
  · rcases inner_shape_walk [] t hs (by simpa [walk] using build_ne_null h) with
      ⟨_, _, h2⟩ | ⟨q, hq, _⟩
    · simpa [walk] using h2
    · simp at hq
  · intro p hp
    rcases inner_shape_walk p t hs hp with ⟨hz, _, h2⟩ | ⟨q, rfl, _, h1, h2⟩
    · have hno : ¬ ∃ q, p = q ++ [0] := by
        rintro ⟨q, rfl⟩
        exact hz 0 (by simp) rfl
      exact ⟨⟨fun h3 => absurd h2 h3, fun h3 => absurd h3 hno⟩, fun h3 => absurd h3 hno⟩
    · refine ⟨⟨fun _ => ⟨q, rfl⟩, fun _ => h2⟩, fun _ i => ?_⟩
      rw [walk_append]
      exact terminal_shape_walk h1 (by simp)

/-- Witness of `trie_shape_invariant`: the trie that holds "a". -/
theorem trie_shape_invariant_witness :
    build unsigned_char_abi [(lit "a", lit "R")] = some (one_byte_trie 97 (lit "R"))
    ∧ (symbol_of (one_byte_trie 97 (lit "R")) = none
      ∧ ∀ p : List Byte, walk (one_byte_trie 97 (lit "R")) p ≠ .null →
          ((symbol_of (walk (one_byte_trie 97 (lit "R")) p) ≠ none ↔ ∃ q, p = q ++ [0])
          ∧ ((∃ q, p = q ++ [0]) →
              ∀ i : Byte, walk (one_byte_trie 97 (lit "R")) (p ++ [i]) = .null))) :=
  ⟨rfl, trie_shape_invariant unsigned_char_abi [(lit "a", lit "R")] _ rfl⟩

/-- The loop of `write_files` over a list of tokens followed by more tokens. -/
theorem write_files_loop_append (P : Platform) (W : Files) (key : List Byte) :
    ∀ (front back : List (List Byte)) (st : LoopState),
      write_files_loop P W key st (front ++ back)
        = match write_files_loop P W key st front with
          | .error e => .error e
          | .ok st1 => write_files_loop P W key st1 back := by
  intro front
  induction front with
  | nil => intro back st; rfl
  | cons file rest ih =>
    intro back st
    simp only [List.cons_append, write_files_loop]
    cases write_files_step P W key st file with
    | error e => rfl
    | ok st1 => exact ih back st1

/-- The flag after one round of the loop: set by the token "--text", cleared by
any other token. -/
theorem write_files_step_flag {P : Platform} {W : Files} {key : List Byte} {st st1 : LoopState}
    {file : List Byte} (h : write_files_step P W key st file = .ok st1) :
    st1.wants_text = if cstr file = lit "--text" then 1 else 0 := by
  unfold write_files_step at h
  by_cases ht : cstr file = lit "--text"
  · rw [if_pos ht] at h
    simp only [Except.ok.injEq] at h
    rw [← h, if_pos ht]
  · rw [if_neg ht] at h
    rw [if_neg ht]
    simp only at h
    split at h
    · simp at h
    · split at h
      · simp at h
      · simp only [Except.ok.injEq] at h
        rw [← h]

/-- What one round of the loop does for an input-file token: the file is
registered under its identifier; if it is new, `write_file` is called with
the current flag as `is_text`; a line end goes to the source stream; the flag
is cleared. -/
theorem write_files_step_file {P : Platform} {W : Files} {key : List Byte} {st st1 : LoopState}
    {file : List Byte} (hfile : cstr file ≠ lit "--text")
    (h : write_files_step P W key st file = .ok st1) :
    st1.wants_text = 0
    ∧ ∃ (root1 : crez_node) (added : Int),
        node_add_symbol P st.root file (make_identifier P file key) = some (root1, added)
        ∧ st1.root = root1
        ∧ (added ≠ 0 →
            st1.h_file = (write_file W file (make_identifier P file key) st.h_file st.c_file
                st.wants_text).1
            ∧ fprintf (write_file W file (make_identifier P file key) st.h_file st.c_file
                st.wants_text).2 (lit "\n") = .ok st1.c_file)
        ∧ (added = 0 →
            st1.h_file = st.h_file ∧ fprintf st.c_file (lit "\n") = .ok st1.c_file) := by
  refine ⟨by rw [write_files_step_flag h, if_neg hfile], ?_⟩
  unfold write_files_step at h
  rw [if_neg hfile] at h
  simp only at h
  cases hadd : node_add_symbol P st.root file (make_identifier P file key) with
  | none => rw [hadd] at h; simp at h
  | some res =>
    obtain ⟨root1, added⟩ := res
    rw [hadd] at h
    simp only at h
    refine ⟨root1, added, rfl, ?_⟩
    by_cases ha : added ≠ 0
    · rw [if_pos ha] at h
      cases hf : fprintf (write_file W file (make_identifier P file key) st.h_file st.c_file
          st.wants_text).2 (lit "\n") with
      | error e => rw [hf] at h; simp at h
      | ok c2 =>
        rw [hf] at h
        simp only [Except.ok.injEq] at h
        subst h
        exact ⟨rfl, fun _ => ⟨rfl, rfl⟩, fun h0 => absurd h0 ha⟩
    · rw [if_neg ha] at h
      cases hf : fprintf st.c_file (lit "\n") with
      | error e => rw [hf] at h; simp at h
      | ok c2 =>
        rw [hf] at h
        simp only [Except.ok.injEq] at h
        subst h
        exact ⟨rfl, fun h1 => absurd h1 ha, fun _ => ⟨rfl, rfl⟩⟩

/-- The flag before the token at position `i`, when the loop starts with the flag
clear: set exactly if the token before it is "--text". -/
theorem write_files_loop_flag (P : Platform) (W : Files) (key : List Byte)
    (tokens : List (List Byte)) (st0 : LoopState) (h0 : st0.wants_text = 0) :
    ∀ (i : Nat) (st : LoopState), i ≤ tokens.length →
      write_files_loop P W key st0 (tokens.take i) = .ok st →
      st.wants_text = if 0 < i ∧ cstr (tokens.getD (i - 1) []) = lit "--text" then 1 else 0 := by
  intro i
  cases i with
  | zero =>
    intro st _ h
    simp only [List.take_zero, write_files_loop, Except.ok.injEq] at h
    rw [← h, h0]
    simp
  | succ k =>
    intro st hk h
    have hlt : k < tokens.length := by omega
    have htake : tokens.take (k + 1) = tokens.take k ++ [tokens.getD k []] := by
      rw [List.take_succ, List.getD_eq_getElem _ _ hlt, List.getElem?_eq_getElem hlt]
      rfl
    rw [htake, write_files_loop_append] at h
    cases hfront : write_files_loop P W key st0 (tokens.take k) with
    | error e => rw [hfront] at h; simp at h
    | ok st1 =>
      rw [hfront] at h
      simp only [write_files_loop] at h
      cases hstep : write_files_step P W key st1 (tokens.getD k []) with
      | error e => rw [hstep] at h; simp at h
      | ok st2 =>
        rw [hstep] at h
        simp only [Except.ok.injEq] at h
        subst h
        rw [write_files_step_flag hstep]
        simp

/-- C12: in the loop of `write_files`, started as `write_files` starts it with
the flag clear, whenever the run reaches the token at position `i`, the flag
is 1 exactly if the token just before it is "--text" (and 0 otherwise); an
input-file token is then registered and, if it is new, written by `write_file`
with that flag as `is_text`; and after every input-file token, a duplicate
that is not written included, the flag is 0. -/
theorem text_flag_scope (P : Platform) (W : Files) (key : List Byte)
    (tokens : List (List Byte)) (st0 st : LoopState) (i : Nat)
    (h0 : st0.wants_text = 0) (hi : i < tokens.length)
    (hrun : write_files_loop P W key st0 (tokens.take i) = .ok st) :
    (st.wants_text = 1 ↔ 0 < i ∧ cstr (tokens.getD (i - 1) []) = lit "--text")
    ∧ (st.wants_text = 0 ↔ ¬ (0 < i ∧ cstr (tokens.getD (i - 1) []) = lit "--text"))
    ∧ (cstr (tokens.getD i []) ≠ lit "--text" →
        ∀ st1 : LoopState, write_files_step P W key st (tokens.getD i []) = .ok st1 →
          st1.wants_text = 0
          ∧ ∃ (root1 : crez_node) (added : Int),
              node_add_symbol P st.root (tokens.getD i [])
                  (make_identifier P (tokens.getD i []) key) = some (root1, added)
              ∧ st1.root = root1
              ∧ (added ≠ 0 →
                  st1.h_file = (write_file W (tokens.getD i [])
                      (make_identifier P (tokens.getD i []) key) st.h_file st.c_file
                      (if 0 < i ∧ cstr (tokens.getD (i - 1) []) = lit "--text" then 1 else 0)).1
                  ∧ fprintf (write_file W (tokens.getD i [])
                      (make_identifier P (tokens.getD i []) key) st.h_file st.c_file
                      (if 0 < i ∧ cstr (tokens.getD (i - 1) []) = lit "--text" then 1 else 0)).2
                      (lit "\n") = .ok st1.c_file)
              ∧ (added = 0 →
                  st1.h_file = st.h_file ∧ fprintf st.c_file (lit "\n") = .ok st1.c_file)) := by
  have hflag := write_files_loop_flag P W key tokens st0 h0 i st (by omega) hrun
  refine ⟨?_, ?_, ?_⟩
  · rw [hflag]
    by_cases hc : 0 < i ∧ cstr (tokens.getD (i - 1) []) = lit "--text"
    · simp [hc]
    · simp [hc]
  · rw [hflag]
    by_cases hc : 0 < i ∧ cstr (tokens.getD (i - 1) []) = lit "--text"
    · simp [hc]
    · simp [hc]
  · intro hfile st1 hstep
    rw [← hflag]
    exact write_files_step_file hfile hstep

/-! ## Lemmas: the data array -/

/-- The text of one byte, a blank and the number in three columns, reads as that
number. -/
theorem number_text_reads :
    ∀ b : Byte,
      (lit " " ++ decimal3 b.val).foldl (fun s c => s.bind fun x => item_step x c) (some .start)
        = some (.number b.val) := by
  decide

theorem read_byte_item (items : List Nat) :
    ∀ (text : List Byte) (s : ItemState), (∀ c ∈ text, c ≠ 44) →
      text.foldl read_byte (some (items, s))
        = (text.foldl (fun s c => s.bind fun x => item_step x c) (some s)).map
            fun s1 => (items, s1) := by
  intro text
  induction text with
  | nil => intro s _; rfl
  | cons c rest ih =>
    intro s hc
    have hc1 : c ≠ 44 := hc c (by simp)
    have hrest : ∀ x ∈ rest, x ≠ 44 := fun x hx => hc x (by simp [hx])
    simp only [List.foldl_cons, read_byte, if_neg hc1, Option.some_bind]
    cases hs : item_step s c with
    | none =>
      simp only [Option.map_none']
      have h1 : ∀ l : List Byte, l.foldl read_byte none = none := by
        intro l; induction l with
        | nil => rfl
        | cons a l ihl => simpa [read_byte] using ihl
      have h2 : ∀ l : List Byte,
          l.foldl (fun s c => s.bind fun x => item_step x c) none = none := by
        intro l; induction l with
        | nil => rfl
        | cons a l ihl => simpa using ihl
      rw [h1, h2]; rfl
    | some s1 =>
      simp only [Option.map_some']
      exact ih s1 hrest

theorem number_text_no_comma (b : Byte) : ∀ c ∈ lit " " ++ decimal3 b.val, c ≠ 44 := by
  have h : ∀ b : Byte, (lit " " ++ decimal3 b.val).all (fun c => decide (c ≠ 44)) = true := by
    decide
  intro c hc
  simpa using List.all_eq_true.mp (h b) c hc

/-- Blanks and new-lines before an item are skipped. -/
theorem read_blanks (items : List Nat) :
    ∀ (blanks rest : List Byte), (∀ c ∈ blanks, c = 32 ∨ c = 10) →
      (blanks ++ rest).foldl read_byte (some (items, .start))
        = rest.foldl read_byte (some (items, .start)) := by
  intro blanks
  induction blanks with
  | nil => intro rest _; rfl
  | cons c bl ih =>
    intro rest hb
    have hc := hb c (by simp)
    have hc44 : c ≠ 44 := by rcases hc with rfl | rfl <;> decide
    simp only [List.cons_append, List.foldl_cons, read_byte, if_neg hc44, item_step, if_pos hc,
      Option.map_some']
    exact ih rest (fun x hx => hb x (by simp [hx]))

theorem read_byte_none : ∀ text : List Byte, text.foldl read_byte none = none := by
  intro text
  induction text with
  | nil => rfl
  | cons a l ih => simpa [read_byte] using ih

/-- The text `write_byte` writes for a byte, read after the items before it: with
the column at 0 the byte opens the list; with the column above 0 the comma
closes the item before and the byte opens the next. -/
theorem read_write_byte (items : List Nat) (b : Byte) (column : Nat) :
    (column = 0 →
      (write_byte b column).1.foldl read_byte (some (items, .start))
        = some (items, .number b.val))
    ∧ (column ≠ 0 → ∀ n : Nat,
        (write_byte b column).1.foldl read_byte (some (items, .number n))
          = some (items ++ [n], .number b.val))
    ∧ (write_byte b column).2 = (if column = 15 then 1 else column + 1) := by
  have hnum : ∀ its : List Nat,
      (lit " " ++ decimal3 b.val).foldl read_byte (some (its, .start))
        = some (its, .number b.val) := by
    intro its
    rw [read_byte_item its _ _ (number_text_no_comma b), number_text_reads b]
    rfl
  have hcomma : lit "," = [44] := rfl
  have hnl : lit "\n" = [10] := rfl
  have hsp : lit "  " = [32, 32] := rfl
  refine ⟨?_, ?_, ?_⟩
  · intro h0
    subst h0
    simp only [write_byte, Nat.lt_irrefl, if_false, gt_iff_lt, OfNat.zero_ne_ofNat, if_true,
      List.nil_append, hsp]
    rw [read_blanks items [32, 32] _ (by simp)]
    exact hnum items
  · intro h0 n
    have hpos : column > 0 := Nat.pos_of_ne_zero h0
    have hstep : read_byte (some (items, .number n)) 44 = some (items ++ [n], .start) := by
      simp [read_byte]
    by_cases h15 : column = 15
    · subst h15
      have hpiece : (write_byte b 15).1 = 44 :: ([10, 32, 32] ++ (lit " " ++ decimal3 b.val)) := by
        simp [write_byte, hcomma, hnl, hsp]
      rw [hpiece, List.foldl_cons, hstep, read_blanks (items ++ [n]) [10, 32, 32] _ (by simp)]
      exact hnum _
    · have hpiece : (write_byte b column).1 = 44 :: (lit " " ++ decimal3 b.val) := by
        simp [write_byte, hpos, h15, h0, hcomma]
      rw [hpiece, List.foldl_cons, hstep]
      exact hnum _
  · simp only [write_byte]
    by_cases h15 : column = 15
    · simp [h15]
    · simp [h15]

theorem write_data_snoc (init : List Byte) (c : Byte) :
    write_data (init ++ [c])
      = ((write_data init).1 ++ (write_byte c (write_data init).2).1,
         (write_byte c (write_data init).2).2) := by
  simp only [write_data, List.foldl_append, List.foldl_cons, List.foldl_nil]

/-- The text of the bytes of a file without its last byte `last` read so far:
the column is past 0 and the reader is inside the number of `last`, with the
bytes before it as closed items. -/
theorem read_write_data :
    ∀ (content init : List Byte) (last : Byte), content = init ++ [last] →
      (write_data content).2 ≠ 0
      ∧ (write_data content).1.foldl read_byte (some ([], .start))
          = some (init.map (fun b => b.val), .number last.val) := by
  intro content
  induction content using List.reverseRecOn with
  | nil => intro init last h; simp at h
  | append_singleton front c ih =>
    intro init last h
    obtain ⟨hf, hl⟩ := List.append_inj' h rfl
    subst hf
    have hc := (List.cons.inj hl).1
    subst hc
    rw [write_data_snoc]
    obtain ⟨h1, h2, h3⟩ := read_write_byte (front.map (fun b => b.val)) c (write_data front).2
    simp only
    rcases List.eq_nil_or_concat front with rfl | ⟨init1, last1, hfront⟩
    · have h0 : (write_data ([] : List Byte)).2 = 0 := rfl
      have ht : (write_data ([] : List Byte)).1 = [] := rfl
      obtain ⟨h1, _, h3⟩ := read_write_byte [] c 0
      rw [h0, ht, List.nil_append]
      exact ⟨by rw [h3]; simp, h1 rfl⟩
    · rw [List.concat_eq_append] at hfront
      subst hfront
      obtain ⟨hcol, hread⟩ := ih init1 last1 rfl
      refine ⟨?_, ?_⟩
      · rw [h3]; split <;> omega
      · rw [List.foldl_append, hread]
        obtain ⟨_, h2, _⟩ := read_write_byte (init1.map (fun b => b.val)) c
          (write_data (init1 ++ [last1])).2
        rw [h2 hcol last1.val]
        simp

/-- The array initialiser read back: the bytes of the file in order, followed by
one 0 exactly for a text. -/
theorem read_array_initialiser (content : List Byte) (is_text : Int) :
    read_initialiser (array_initialiser content is_text)
      = some (content.map (fun b => b.val) ++ if is_text ≠ 0 then [0] else []) := by
  unfold array_initialiser read_initialiser
  rcases List.eq_nil_or_concat content with rfl | ⟨init, last, hcontent⟩
  · have h0 : (write_data ([] : List Byte)).2 = 0 := rfl
    have ht : (write_data ([] : List Byte)).1 = [] := rfl
    rw [h0, ht, List.nil_append]
    by_cases htext : is_text ≠ 0
    · rw [if_pos htext, if_pos htext, (read_write_byte [] 0 0).1 rfl]
      rfl
    · rw [if_neg htext, if_neg htext]
      rfl
  · rw [List.concat_eq_append] at hcontent
    subst hcontent
    obtain ⟨hcol, hread⟩ := read_write_data (init ++ [last]) init last rfl
    by_cases htext : is_text ≠ 0
    · rw [if_pos htext, if_pos htext, List.foldl_append, hread,
        (read_write_byte (init.map (fun b => b.val)) 0 _).2.1 hcol last.val]
      simp
    · rw [if_neg htext, if_neg htext, List.append_nil, hread]
      simp

/-- C13: for a file with the bytes `content`, `write_file` appends to the source
stream the data array, whose initialiser is a comma-separated list of decimal
numbers without a leading, a trailing or a doubled comma that reads back as
the bytes of the file in order, followed by one 0 exactly if `is_text` is set;
and the length in the resource struct is the number of bytes, plus one exactly
if `is_text` is set. -/
theorem embedded_data_round_trip (W : Files) (file_name identifier written content : List Byte)
    (h_file : FilePtr) (is_text : Int) (hread : W.readable (cstr file_name) = some content) :
    (write_file W file_name identifier h_file (some written) is_text).2
      = some (written
          ++ (lit "unsigned char const " ++ cstr identifier ++ lit "_data[] = \x7b\n"
              ++ array_initialiser content is_text ++ lit "\n\x7d;\n"
              ++ (lit "struct c_rez_resource const " ++ cstr identifier ++ lit " = \x7b "
                  ++ cstr identifier ++ lit "_data, "
                  ++ decimal (content.length + if is_text ≠ 0 then 1 else 0)
                  ++ lit " \x7d;\n")))
    ∧ read_initialiser (array_initialiser content is_text)
        = some (content.map (fun b => b.val) ++ if is_text ≠ 0 then [0] else []) := by
  refine ⟨?_, read_array_initialiser content is_text⟩
  unfold write_file array_initialiser
  rw [if_neg (by simp)]
  simp only [hread, Option.isSome_some, if_true, append_to, Option.map_some', List.append_assoc]
  by_cases htext : is_text ≠ 0
  · simp only [if_pos htext]
  · simp only [if_neg htext, Nat.add_zero]

/-- Witness of `embedded_data_round_trip`: the file "a.txt" of the examples,
holding "hi", written as a text. -/
theorem embedded_data_round_trip_witness :
    sample_files.readable (cstr (lit "a.txt")) = some (lit "hi")
    ∧ ((write_file sample_files (lit "a.txt") (lit "k_a_txt") none (some []) 1).2
        = some ([]
            ++ (lit "unsigned char const " ++ cstr (lit "k_a_txt") ++ lit "_data[] = \x7b\n"
                ++ array_initialiser (lit "hi") 1 ++ lit "\n\x7d;\n"
                ++ (lit "struct c_rez_resource const " ++ cstr (lit "k_a_txt") ++ lit " = \x7b "
                    ++ cstr (lit "k_a_txt") ++ lit "_data, "
                    ++ decimal ((lit "hi").length + if (1 : Int) ≠ 0 then 1 else 0)
                    ++ lit " \x7d;\n")))
      ∧ read_initialiser (array_initialiser (lit "hi") 1)
          = some ((lit "hi").map (fun b => b.val) ++ if (1 : Int) ≠ 0 then [0] else [])) :=
  ⟨by decide, embedded_data_round_trip sample_files (lit "a.txt") (lit "k_a_txt") [] (lit "hi")
    none 1 (by decide)⟩

/-! ## Lemmas: the order of insertions -/

/-- One round of the loop, read forwards: from the result of the rest of the loop
on the child the round moves into. -/
theorem add_symbol_loop_step {P : Platform} {sym : Option (List Byte)} {ch : Byte → crez_node}
    {key : Byte} {rest symbol : List Byte} {child c1 : crez_node} {r : Int}
    (hb : index_in_bounds P key)
    (hchild : (ch key = .null ∧ child = node_create none) ∨ (ch key ≠ .null ∧ child = ch key))
    (hrec : add_symbol_loop P child rest symbol = some (c1, r)) :
    add_symbol_loop P (.node sym ch) (key :: rest) symbol
      = some (.node sym (Function.update ch key c1), r) := by
  simp only [add_symbol_loop, array_slot_of_in_bounds hb]
  rcases hchild with ⟨hnull, rfl⟩ | ⟨hnn, rfl⟩
  · rw [hnull]
    simp only [hrec]
  · cases hc : ch key with
    | null => exact absurd hc hnn
    | node s c =>
      rw [hc] at hrec
      simp only [hrec]

/-- The code after the loop, on a node: the terminal node is created when slot 0
is empty. -/
theorem add_symbol_loop_nil (P : Platform) (sym : Option (List Byte)) (ch : Byte → crez_node)
    (symbol : List Byte) :
    (ch 0 = .null →
      add_symbol_loop P (.node sym ch) [] symbol
        = some (.node sym (Function.update ch 0 (node_create (some symbol))), 1))
    ∧ (ch 0 ≠ .null → add_symbol_loop P (.node sym ch) [] symbol = some (.node sym ch, 0)) := by
  constructor
  · intro h
    simp only [add_symbol_loop, h]
  · intro h
    cases hc : ch 0 with
    | null => exact absurd hc h
    | node s c => simp only [add_symbol_loop, hc]

/-- Two calls of the loop with different zero-free names give the same trie and
the same results in either order. -/
theorem add_symbol_loop_comm (P : Platform) (s1 s2 : List Byte) :
    ∀ (n m : List Byte) (t t1 t2 : crez_node) (r1 r2 : Int),
      zero_free n → zero_free m → n ≠ m →
      add_symbol_loop P t n s1 = some (t1, r1) → add_symbol_loop P t1 m s2 = some (t2, r2) →
      ∃ u1, add_symbol_loop P t m s2 = some (u1, r2)
        ∧ add_symbol_loop P u1 n s1 = some (t2, r1) := by
  intro n
  induction n with
  | nil =>
    intro m t t1 t2 r1 r2 _ hm hne h1 h2
    cases m with
    | nil => exact absurd rfl hne
    | cons j m1 =>
      have hj : j ≠ 0 := hm j (by simp)
      cases t with
      | null => simp [add_symbol_loop] at h1
      | node sym ch =>
        obtain ⟨hnil1, hnil2⟩ := add_symbol_loop_nil P sym ch s1
        by_cases h0 : ch 0 = .null
        · rw [hnil1 h0] at h1
          simp only [Option.some.injEq, Prod.mk.injEq] at h1
          obtain ⟨rfl, rfl⟩ := h1
          obtain ⟨hb, child, c1, hchild, hrec, rfl⟩ := add_symbol_loop_cons h2
          rw [Function.update_noteq hj] at hchild
          refine ⟨.node sym (Function.update ch j c1), add_symbol_loop_step hb hchild hrec, ?_⟩
          rw [(add_symbol_loop_nil P sym _ s1).1 (by rw [Function.update_noteq (Ne.symm hj)]; exact h0),
            Function.update_comm hj]
        · rw [hnil2 h0] at h1
          simp only [Option.some.injEq, Prod.mk.injEq] at h1
          obtain ⟨rfl, rfl⟩ := h1
          obtain ⟨hb, child, c1, hchild, hrec, rfl⟩ := add_symbol_loop_cons h2
          refine ⟨_, h2, ?_⟩
          exact (add_symbol_loop_nil P sym _ s1).2
            (by rw [Function.update_noteq (Ne.symm hj)]; exact h0)
  | cons k n1 ih =>
    intro m t t1 t2 r1 r2 hn hm hne h1 h2
    have hk : k ≠ 0 := hn k (by simp)
    have hn1 : zero_free n1 := fun b hb => hn b (by simp [hb])
    cases t with
    | null => simp [add_symbol_loop] at h1
    | node sym ch =>
      obtain ⟨hbk, childn, c1, hchildn, hrec1, rfl⟩ := add_symbol_loop_cons h1
      have hc1 : c1 ≠ .null := (add_symbol_loop_spec P s1 n1 childn c1 r1 hrec1).2.1
      cases m with
      | nil =>
        obtain ⟨hnil1, hnil2⟩ := add_symbol_loop_nil P sym (Function.update ch k c1) s2
        rw [Function.update_noteq (Ne.symm hk)] at hnil1 hnil2
        by_cases h0 : ch 0 = .null
        · rw [hnil1 h0] at h2
          simp only [Option.some.injEq, Prod.mk.injEq] at h2
          obtain ⟨rfl, rfl⟩ := h2
          refine ⟨_, (add_symbol_loop_nil P sym ch s2).1 h0, ?_⟩
          rw [add_symbol_loop_step hbk (by rw [Function.update_noteq hk]; exact hchildn) hrec1,
            Function.update_comm hk]
        · rw [hnil2 h0] at h2
          simp only [Option.some.injEq, Prod.mk.injEq] at h2
          obtain ⟨rfl, rfl⟩ := h2
          exact ⟨_, (add_symbol_loop_nil P sym ch s2).2 h0, h1⟩
      | cons j m1 =>
        have hj : j ≠ 0 := hm j (by simp)
        have hm1 : zero_free m1 := fun b hb => hm b (by simp [hb])
        obtain ⟨hbj, childm, c2, hchildm, hrec2, rfl⟩ := add_symbol_loop_cons h2
        by_cases hjk : j = k
        · subst hjk
          rw [Function.update_same] at hchildm
          have hcm : childm = c1 := by
            rcases hchildm with ⟨h, _⟩ | ⟨_, h⟩
            · exact absurd h hc1
            · exact h
          subst hcm
          have hne1 : n1 ≠ m1 := fun e => hne (by rw [e])
          obtain ⟨v1, hv1, hv2⟩ := ih m1 childn childm c2 r1 r2 hn1 hm1 hne1 hrec1 hrec2
          have hv1n : v1 ≠ .null := (add_symbol_loop_spec P s2 m1 childn v1 r2 hv1).2.1
          refine ⟨.node sym (Function.update ch j v1), add_symbol_loop_step hbj hchildn hv1, ?_⟩
          rw [@add_symbol_loop_step P sym _ j n1 s1 v1 c2 r1 hbk
            (by rw [Function.update_same]; exact Or.inr ⟨hv1n, rfl⟩) hv2]
          simp only [Function.update_idem]
        · rw [Function.update_noteq hjk] at hchildm
          refine ⟨.node sym (Function.update ch j c2), add_symbol_loop_step hbj hchildm hrec2, ?_⟩
          rw [@add_symbol_loop_step P sym _ k n1 s1 childn c1 r1 hbk
            (by rw [Function.update_noteq (Ne.symm hjk)]; exact hchildn) hrec1,
            Function.update_comm hjk]

/-- Two `node_add_symbol` calls with different names give the same trie and the
same results in either order. -/
theorem node_add_symbol_comm {P : Platform} {t t1 t2 : crez_node} {n m s1 s2 : List Byte}
    {r1 r2 : Int} (hne : cstr n ≠ cstr m)
    (h1 : node_add_symbol P t n s1 = some (t1, r1))
    (h2 : node_add_symbol P t1 m s2 = some (t2, r2)) :
    ∃ u1, node_add_symbol P t m s2 = some (u1, r2)
      ∧ node_add_symbol P u1 n s1 = some (t2, r1) :=
  add_symbol_loop_comm P s1 s2 (cstr n) (cstr m) t t1 t2 r1 r2 (cstr_zero_free n)
    (cstr_zero_free m) hne h1 h2

theorem add_all_two (P : Platform) (t : crez_node) (a b : List Byte × List Byte)
    (rest : List (List Byte × List Byte)) :
    add_all P t (a :: b :: rest)
      = ((node_add_symbol P t a.1 a.2).bind fun x =>
          (node_add_symbol P x.1 b.1 b.2).map fun y => y.1).bind fun u => add_all P u rest := by
  obtain ⟨an, as⟩ := a
  obtain ⟨bn, bs⟩ := b
  simp only [add_all]
  cases h1 : node_add_symbol P t an as with
  | none => rfl
  | some x =>
    obtain ⟨t1, r1⟩ := x
    simp only [Option.some_bind]
    cases h2 : node_add_symbol P t1 bn bs with
    | none => rfl
    | some y => rfl

theorem add_two_swap (P : Platform) (t : crez_node) (a b : List Byte × List Byte)
    (hne : cstr a.1 ≠ cstr b.1) :
    ((node_add_symbol P t a.1 a.2).bind fun x =>
        (node_add_symbol P x.1 b.1 b.2).map fun y => y.1)
      = ((node_add_symbol P t b.1 b.2).bind fun x =>
        (node_add_symbol P x.1 a.1 a.2).map fun y => y.1) := by
  have key : ∀ (a b : List Byte × List Byte), cstr a.1 ≠ cstr b.1 → ∀ t2 : crez_node,
      ((node_add_symbol P t a.1 a.2).bind fun x =>
          (node_add_symbol P x.1 b.1 b.2).map fun y => y.1) = some t2 →
      ((node_add_symbol P t b.1 b.2).bind fun x =>
          (node_add_symbol P x.1 a.1 a.2).map fun y => y.1) = some t2 := by
    intro a b hab t2 h
    cases h1 : node_add_symbol P t a.1 a.2 with
    | none => rw [h1] at h; simp at h
    | some x =>
      obtain ⟨t1, r1⟩ := x
      rw [h1] at h
      simp only [Option.some_bind] at h
      cases h2 : node_add_symbol P t1 b.1 b.2 with
      | none => rw [h2] at h; simp at h
      | some y =>
        obtain ⟨t3, r2⟩ := y
        rw [h2] at h
        simp only [Option.map_some', Option.some.injEq] at h
        subst h
        obtain ⟨u1, hu1, hu2⟩ := node_add_symbol_comm hab h1 h2
        simp [hu1, hu2]
  cases hl : ((node_add_symbol P t a.1 a.2).bind fun x =>
      (node_add_symbol P x.1 b.1 b.2).map fun y => y.1) with
  | some t2 => exact (key a b hne t2 hl).symm
  | none =>
    cases hr : ((node_add_symbol P t b.1 b.2).bind fun x =>
        (node_add_symbol P x.1 a.1 a.2).map fun y => y.1) with
    | none => rfl
    | some t2 =>
      have := key b a (Ne.symm hne) t2 hr
      rw [hl] at this
      cases this

/-- A run of calls with pairwise different names gives the same trie in any
order of the calls. -/
theorem add_all_perm (P : Platform) {calls1 calls2 : List (List Byte × List Byte)}
    (hperm : calls1.Perm calls2) :
    (calls1.map fun c => cstr c.1).Nodup → ∀ t : crez_node,
      add_all P t calls1 = add_all P t calls2 := by
  induction hperm with
  | nil => intro _ t; rfl
  | cons x _ ih =>
    intro hnd t
    obtain ⟨n, s⟩ := x
    simp only [List.map_cons, List.nodup_cons] at hnd
    simp only [add_all]
    cases node_add_symbol P t n s with
    | none => rfl
    | some res => exact ih hnd.2 res.1
  | swap x y l =>
    intro hnd t
    simp only [List.map_cons, List.nodup_cons, List.mem_cons, not_or] at hnd
    rw [add_all_two, add_all_two, add_two_swap P t y x hnd.1.1]
  | trans p1 _ ih1 ih2 =>
    intro hnd t
    rw [ih1 hnd t]
    exact ih2 ((p1.map _).nodup_iff.mp hnd) t

/-- C20: for two different zero-free names, inserting `(n, s1)` and then
`(m, s2)` into a trie gives the same trie, with the same two results, as
inserting `(m, s2)` and then `(n, s1)`, so `write_node` writes the same text
for both; and a run of calls with pairwise different names gives the same
trie, hence the same text, in any order of the calls. -/
theorem insertion_order_independent (P : Platform) (t t1 t2 : crez_node)
    (n m s1 s2 : List Byte) (r1 r2 : Int)
    (hn : zero_free n) (hm : zero_free m) (hne : n ≠ m)
    (h1 : node_add_symbol P t n s1 = some (t1, r1))
    (h2 : node_add_symbol P t1 m s2 = some (t2, r2)) :
    (∃ u1, node_add_symbol P t m s2 = some (u1, r2)
        ∧ node_add_symbol P u1 n s1 = some (t2, r1))
    ∧ add_all P t [(n, s1), (m, s2)] = some t2
    ∧ add_all P t [(m, s2), (n, s1)] = some t2
    ∧ (add_all P t [(m, s2), (n, s1)]).map (fun u => write_node u 0)
        = (add_all P t [(n, s1), (m, s2)]).map (fun u => write_node u 0)
    ∧ (∀ (calls1 calls2 : List (List Byte × List Byte)) (root : crez_node),
        calls1.Perm calls2 → (calls1.map fun c => cstr c.1).Nodup →
          add_all P root calls1 = add_all P root calls2
          ∧ (add_all P root calls1).map (fun u => write_node u 0)
              = (add_all P root calls2).map (fun u => write_node u 0)) := by
  have hne1 : cstr n ≠ cstr m := by
    rw [cstr_of_zero_free hn, cstr_of_zero_free hm]; exact hne
  obtain ⟨u1, hu1, hu2⟩ := node_add_symbol_comm hne1 h1 h2
  have ha : add_all P t [(n, s1), (m, s2)] = some t2 := by simp [add_all, h1, h2]
  have hb : add_all P t [(m, s2), (n, s1)] = some t2 := by simp [add_all, hu1, hu2]
  refine ⟨⟨u1, hu1, hu2⟩, ha, hb, by rw [ha, hb], ?_⟩
  intro calls1 calls2 root hperm hnd
  have := add_all_perm P hperm hnd root
  exact ⟨this, by rw [this]⟩

/-- Witness of `insertion_order_independent`: "a" and then "b" inserted into an
empty root. -/
theorem insertion_order_independent_witness :
    zero_free (lit "a") ∧ zero_free (lit "b") ∧ lit "a" ≠ lit "b"
    ∧ node_add_symbol unsigned_char_abi (node_create none) (lit "a") (lit "Ra")
        = some (one_byte_trie 97 (lit "Ra"), 1)
    ∧ node_add_symbol unsigned_char_abi (one_byte_trie 97 (lit "Ra")) (lit "b") (lit "Rb")
        = some (.node none (Function.update
            (single_child 97 (.node none (single_child 0 (node_create (some (lit "Ra"))))))
            98 (.node none (single_child 0 (node_create (some (lit "Rb")))))), 1)
    ∧ add_all unsigned_char_abi (node_create none) [(lit "b", lit "Rb"), (lit "a", lit "Ra")]
        = some (.node none (Function.update
            (single_child 97 (.node none (single_child 0 (node_create (some (lit "Ra"))))))
            98 (.node none (single_child 0 (node_create (some (lit "Rb"))))))) :=
  ⟨by decide, by decide, by decide, rfl, rfl,
    (insertion_order_independent unsigned_char_abi (node_create none) _ _ (lit "a") (lit "b")
      (lit "Ra") (lit "Rb") 1 1 (by decide) (by decide) (by decide) rfl rfl).2.2.1⟩

/-- Witness of `text_flag_scope`: the tokens "--text", "a.txt", with the run at
the second token; and a run in which "a.txt" is written as a text, "a.b" after
it is not, and the second "a.txt", a duplicate that follows "--text", is
skipped and leaves the flag clear for "a_b". -/
theorem text_flag_scope_witness :
    (0 : Int) = 0 ∧ 1 < [lit "--text", lit "a.txt"].length
    ∧ write_files_loop signed_char_abi sample_files (lit "k")
        ⟨node_create none, none, some [], 0⟩ ([lit "--text", lit "a.txt"].take 1)
        = .ok ⟨node_create none, none, some [], 1⟩
    ∧ ((1 : Int) = 1 ↔ 0 < 1 ∧ cstr ([lit "--text", lit "a.txt"].getD (1 - 1) []) = lit "--text")
    ∧ (match write_files_loop signed_char_abi sample_files (lit "k")
          ⟨node_create none, none, some [], 0⟩
          [lit "--text", lit "a.txt", lit "a.b", lit "--text", lit "a.txt", lit "a_b"] with
        | .ok st => (st.c_file, st.wants_text)
        | .error _ => (none, 0))
      = (some (lit "unsigned char const k_a_txt_data[] = \x7b\n   104, 105,   0\n\x7d;\nstruct c_rez_resource const k_a_txt = \x7b k_a_txt_data, 3 \x7d;\n\nunsigned char const k_a_b_data[] = \x7b\n     1\n\x7d;\nstruct c_rez_resource const k_a_b = \x7b k_a_b_data, 1 \x7d;\n\n\nunsigned char const k_a_b_data[] = \x7b\n     2\n\x7d;\nstruct c_rez_resource const k_a_b = \x7b k_a_b_data, 1 \x7d;\n\n"), 0) :=
  ⟨rfl, by decide, rfl,
    (text_flag_scope signed_char_abi sample_files (lit "k") [lit "--text", lit "a.txt"]
      ⟨node_create none, none, some [], 0⟩ ⟨node_create none, none, some [], 1⟩ 1 rfl
      (by decide) rfl).1, by decide⟩

end CRez
